import Mathlib

/-!
# Multilingual strings of `translation/string.go`

A shallow embedding of the `String` value type of package `translation` and of its
methods.

* A Go `map[string]string` is a list of entries; the order of the list is the order in
  which `range` visits the entries. Go leaves that order unspecified, so the theorems
  below quantify over every list and read maps only through `mapGet`.
* Map objects live in a `Heap`: a struct holds either `nil` or the address of a map, so
  that two structs holding the same address share their entries, as in Go.
* `strings.ToLower` and `strings.TrimSpace` belong to the standard library; they are
  parameters (`toLower`, `trimSpace`) of the methods that call them. `asciiLower` is the
  instance used on concrete inputs.
* A write into a `nil` map and a dereference of a `nil` pointer are faults, returned
  through `Except Fault`.
* `json.Unmarshal` is followed member by member, in document order: a member name selects
  a struct field up to case folding, a later member overwrites an earlier one, `null`
  leaves a field as it is and a value of the wrong JSON type is a decoding error.
* A `range` loop visits the entries its map holds when the loop starts. When the map it
  ranges over is the very map its body writes to, Go leaves open whether an entry inserted
  by the body is visited; the embedding does not visit it.
-/

namespace Translation

/-! ## Maps and the heap -/

/-- Entries of one `map[string]string`, in an iteration order. -/
abbrev GoMap := List (String × String)

/-- Comma-ok lookup `v, ok := m[k]`. -/
def mapGet : GoMap → String → Option String
  | [], _ => none
  | (k', v) :: rest, k => if k' = k then some v else mapGet rest k

/-- Plain index expression `m[k]`: the zero value when the key is absent. -/
def mapIndex (m : GoMap) (k : String) : String :=
  (mapGet m k).getD ""

/-- Entries of a map after `m[k] = v`. -/
def mapSet : GoMap → String → String → GoMap
  | [], k, v => [(k, v)]
  | (k', v') :: rest, k, v =>
    if k' = k then (k', v) :: rest else (k', v') :: mapSet rest k v

/-- Keys of a map. -/
def mapKeys (m : GoMap) : List String := m.map Prod.fst

/-- Map objects allocated so far: `cell a` holds the entries of the map at address `a`,
`next` is the first unused address. -/
structure Heap where
  cell : Nat → GoMap
  next : Nat

/-- Heap with no map allocated. -/
def Heap.empty : Heap := { cell := fun _ => [], next := 0 }

/-- Allocation of a new map object holding `m` (`make(map[string]string)` or a map literal). -/
def Heap.alloc (h : Heap) (m : GoMap) : Nat × Heap :=
  (h.next, { cell := Function.update h.cell h.next m, next := h.next + 1 })

/-- Replacement of the entries of the map at address `a`. -/
def Heap.write (h : Heap) (a : Nat) (m : GoMap) : Heap :=
  { h with cell := Function.update h.cell a m }

/-- Entries read through a map value: a nil map reads as a map without entries. -/
def entries (h : Heap) (t : Option Nat) : GoMap :=
  match t with
  | none => []
  | some a => h.cell a

/-- Runtime faults. -/
inductive Fault where
  | assignNilMap
  | nilDereference
  deriving DecidableEq, Repr

/-- Statement `t[k] = v`: a fault when `t` is the nil map. -/
def mapassign (h : Heap) (t : Option Nat) (k v : String) : Except Fault Heap :=
  match t with
  | none => .error .assignNilMap
  | some a => .ok (h.write a (mapSet (h.cell a) k v))

/-- Loop `for lang, str := range m` whose body updates the heap. -/
def forRange (m : GoMap) (body : Heap → String × String → Except Fault Heap) (h : Heap) :
    Except Fault Heap :=
  m.foldlM body h

/-! ## The value type -/

/-- Struct `String` of the source; `Translate` is `none` for the nil map and the address
of a map object otherwise. -/
structure TString where
  Display : String
  Second : String
  Translate : Option Nat
  ctxApplied : Bool
  deriving DecidableEq, Repr

/-- Zero value `String{}`. -/
def TString.zero : TString :=
  { Display := "", Second := "", Translate := none, ctxApplied := false }

/-- Interface `Context`: the values its four accessors return. -/
structure Context where
  GetDisplay : String
  GetFallback : String
  GetSecond : String
  GetTranslationList : Bool
  deriving DecidableEq, Repr

/-- Entries of the translations of `o`. -/
def translations (h : Heap) (o : TString) : GoMap := entries h o.Translate

/-- Source `NewString`. -/
def NewString (lang str : String) (h : Heap) : TString × Heap :=
  let (a, h1) := h.alloc [(lang, str)]
  ({ Display := "", Second := "", Translate := some a, ctxApplied := false }, h1)

/-- Source `Init`. -/
def Init (o : TString) (h : Heap) : TString × Heap :=
  match o.Translate with
  | none =>
    let (a, h1) := h.alloc []
    ({ o with Translate := some a }, h1)
  | some _ => (o, h)

/-- Source `Reset`. -/
def Reset (_o : TString) : TString :=
  { Display := "", Second := "", Translate := none, ctxApplied := false }

/-- Source `ResetCtxApplied`. -/
def ResetCtxApplied (o : TString) : TString :=
  { o with ctxApplied := false }

/-- Source `resetTranslation`. -/
def resetTranslation (o : TString) : TString :=
  { o with Display := "", Second := "", ctxApplied := false }

/-- Source `ClearContext`. -/
def ClearContext (o : TString) : TString :=
  { o with Display := "", Second := "" }

/-- Source `ApplyTranslationCtx`. The receiver is a pointer: `none` is the nil pointer,
and the result is the struct the returned pointer refers to. -/
def ApplyTranslationCtx (o : Option TString) (h : Heap) (ctx : Context) : Option TString :=
  match o with
  | none => none
  | some s =>
    if s.ctxApplied then some s
    else
      let m := translations h s
      let display :=
        match mapGet m ctx.GetDisplay with
        | some str => if str ≠ "" then str else mapIndex m ctx.GetFallback
        | none => mapIndex m ctx.GetFallback
      let second := mapIndex m ctx.GetSecond
      some { Display := display
             Second := second
             Translate := if ctx.GetTranslationList then s.Translate else none
             ctxApplied := true }

/-- Source `Clone`. The receiver is a pointer; the struct is copied, and the map is copied
into a new map object only when it has entries. -/
def Clone (o : Option TString) (h : Heap) : Option TString × Heap :=
  match o with
  | none => (none, h)
  | some s =>
    if (translations h s).length > 0 then
      let (a, h1) := h.alloc []
      let m := (translations h s).foldl (fun acc e => mapSet acc e.1 e.2) (h1.cell a)
      (some { s with Translate := some a }, h1.write a m)
    else (some s, h)

/-- Source `Empty`. -/
def Empty (o : TString) (h : Heap) : Bool :=
  (translations h o).all (fun e => ¬ (e.2.utf8ByteSize > 0))

/-- Source `HasTranslation`. -/
def HasTranslation (o : TString) (h : Heap) : Bool :=
  !(Empty o h) || o.Display ≠ "" || o.Second ≠ ""

/-- Source `Update`. -/
def Update (toLower : String → String) (o r : TString) (h : Heap) :
    Except Fault (TString × Heap) :=
  let (o1, h1) := Init o h
  match forRange (translations h1 r)
      (fun hh e => mapassign hh o1.Translate (toLower e.1) e.2) h1 with
  | .error f => .error f
  | .ok h2 => .ok (o1, h2)

/-- Source `Add`. -/
def Add (toLower : String → String) (o r : TString) (h : Heap) :
    Except Fault (TString × Heap) :=
  let (o1, h1) := Init o h
  match forRange (translations h1 r)
      (fun hh e =>
        mapassign hh o1.Translate (toLower e.1)
          (mapIndex (translations hh o1) (toLower e.1) ++ e.2)) h1 with
  | .error f => .error f
  | .ok h2 => .ok (o1, h2)

/-- Source `AddTranslate`. -/
def AddTranslate (o : TString) (lang str : String) (h : Heap) :
    Except Fault (TString × Heap) :=
  let (o1, h1) := Init o h
  match mapassign h1 o1.Translate lang str with
  | .error f => .error f
  | .ok h2 => .ok (o1, h2)

/-- Source `Map`: the returned struct; the receiver is only read. -/
def Map (toLower : String → String) (o : TString) (f : String → String) (h : Heap) :
    Except Fault (TString × Heap) :=
  if (translations h o).length = 0 then .ok (TString.zero, h)
  else
    let (s, h1) := Init TString.zero h
    match forRange (translations h1 o)
        (fun hh e => mapassign hh s.Translate (toLower e.1) (f e.2)) h1 with
    | .error e => .error e
    | .ok h2 => .ok (s, h2)

/-- Source `Join`: the returned struct; `o.Clone()` yields a pointer that
`resetTranslation` dereferences. -/
def Join (toLower : String → String) (o r : TString) (s : String) (h : Heap) :
    Except Fault (TString × Heap) :=
  match Clone (some o) h with
  | (none, _) => .error .nilDereference
  | (some c, h1) =>
    let joined := resetTranslation c
    match forRange (translations h1 r)
        (fun hh e =>
          let lang := toLower e.1
          match mapGet (translations hh joined) lang with
          | none => mapassign hh joined.Translate lang e.2
          | some cur => mapassign hh joined.Translate lang (cur ++ (s ++ e.2))) h1 with
    | .error f => .error f
    | .ok h2 => .ok (joined, h2)

/-- Source `Len`: `len(str)` counts bytes. -/
def Len (o : TString) (h : Heap) : Nat :=
  (translations h o).foldl (fun ln e => if e.2.utf8ByteSize > ln then e.2.utf8ByteSize else ln) 0

/-- Source `Trim`: the receiver after the call and the returned length. -/
def Trim (toLower trimSpace : String → String) (o : TString) (h : Heap) :
    Except Fault (TString × Nat × Heap) :=
  match Map toLower o (fun s => trimSpace s) h with
  | .error f => .error f
  | .ok (o1, h1) => .ok (o1, Len o1 h1, h1)

/-- Source `GetTranslate`. -/
def GetTranslate (o : TString) (h : Heap) (lang : String) : String :=
  mapIndex (translations h o) lang

/-! ## Wire format -/

/-- A JSON value in a place where the decoder expects a string: `null`, a string, or
anything else (number, boolean, array, object). -/
inductive Scalar where
  | null
  | str (s : String)
  | other
  deriving DecidableEq, Repr

/-- A JSON value of a top-level member: `null`, a string, an object given by its members in
document order, or anything else (number, boolean, array). -/
inductive JValue where
  | null
  | str (s : String)
  | obj (members : List (String × Scalar))
  | other
  deriving DecidableEq, Repr

/-- A JSON object as the decoder reads it: its members in document order. A name may occur
more than once and in any letter case. -/
abbrev Payload := List (String × JValue)

/-- Input bytes of the decoder: either not parseable as a JSON object, or the object they
spell. The literal `null` decodes like an object without members. -/
inductive Wire where
  | malformed
  | wellFormed (p : Payload)
  deriving DecidableEq, Repr

/-- Error returned by the decoder. -/
inductive DecodeError where
  | invalid
  deriving DecidableEq, Repr

/-- Field `TranslateBuf` of the auxiliary struct of `UnmarshalJSON`. -/
structure TranslateBuf where
  En : String
  Ru : String
  deriving DecidableEq, Repr

/-- Case folding of `encoding/json` on one character: a letter `a` to `z` becomes its capital,
the long s (U+017F) becomes `S` and the Kelvin sign (U+212A) becomes `K`. No other
character folds to an ASCII character, so every other character is left as it is. -/
def foldChar (c : Char) : Char :=
  if 97 ≤ c.toNat ∧ c.toNat ≤ 122 then Char.ofNat (c.toNat - 32)
  else if c.toNat = 0x17F then Char.ofNat 83
  else if c.toNat = 0x212A then Char.ofNat 75
  else c

/-- Case folding of a member name. -/
def foldName (s : String) : String :=
  ⟨s.data.map foldChar⟩

/-- Whether `encoding/json` stores the member named `key` into the struct field whose JSON
name is `field`: the names are equal up to case folding. The field names of the auxiliary
struct are ASCII and pairwise different after folding, so a member name selects at most
one field. -/
def matchesField (field key : String) : Bool :=
  foldName key = foldName field

/-- Decoding of one member of the `translate` object into the buffer struct: a string is
stored into the field the name selects, `null` leaves it, any other value is a type error,
and a member that selects no field is skipped. -/
def decodeBufMember (buf : TranslateBuf) (m : String × Scalar) :
    Except DecodeError TranslateBuf :=
  if matchesField "en" m.1 then
    match m.2 with
    | .str s => .ok { buf with En := s }
    | .null => .ok buf
    | .other => .error .invalid
  else if matchesField "ru" m.1 then
    match m.2 with
    | .str s => .ok { buf with Ru := s }
    | .null => .ok buf
    | .other => .error .invalid
  else .ok buf

/-- Decoding of one top-level member into the auxiliary struct. The struct embeds a pointer
to the receiver and declares `TranslateBuf` under the JSON name `translate`; that field is
less nested than the embedded `Translate` of the same JSON name, so it alone receives a
`translate` member, and the receiver keeps its map. -/
def decodeMember (st : TString × TranslateBuf) (m : String × JValue) :
    Except DecodeError (TString × TranslateBuf) :=
  if matchesField "display" m.1 then
    match m.2 with
    | .str s => .ok ({ st.1 with Display := s }, st.2)
    | .null => .ok st
    | _ => .error .invalid
  else if matchesField "second" m.1 then
    match m.2 with
    | .str s => .ok ({ st.1 with Second := s }, st.2)
    | .null => .ok st
    | _ => .error .invalid
  else if matchesField "translate" m.1 then
    match m.2 with
    | .obj ms =>
      match ms.foldlM decodeBufMember st.2 with
      | .ok buf => .ok (st.1, buf)
      | .error e => .error e
    | .null => .ok st
    | _ => .error .invalid
  else .ok st

/-- Call `json.Unmarshal(data, &aux)` of `UnmarshalJSON`: the members are decoded one after
the other in document order, so a later member overwrites what an earlier one stored in
the same field, and a field no member selects stays as it was. -/
def jsonUnmarshalAux (o : TString) (data : Wire) : Except DecodeError (TString × TranslateBuf) :=
  match data with
  | .malformed => .error .invalid
  | .wellFormed p => p.foldlM decodeMember (o, { En := "", Ru := "" })

/-- Source `UnmarshalJSON`. In the second half `aux.Alias` is the receiver itself, so the
three assignments from `aux` leave the receiver as it is. -/
def UnmarshalJSON (o : TString) (data : Wire) (h : Heap) : Except DecodeError (TString × Heap) :=
  match jsonUnmarshalAux o data with
  | .error e => .error e
  | .ok (o1, buf) =>
    let (a, h1) :=
      match o1.Translate with
      | none => h.alloc []
      | some a => (a, h)
    if buf.Ru ≠ "" ∨ buf.En ≠ "" then
      let (b, h2) := h1.alloc []
      let h3 := if buf.En ≠ "" then h2.write b (mapSet (h2.cell b) "en" buf.En) else h2
      let h4 := if buf.Ru ≠ "" then h3.write b (mapSet (h3.cell b) "ru" buf.Ru) else h3
      .ok ({ o1 with Translate := some b, Display := buf.Ru, Second := buf.En }, h4)
    else
      let o2 := { o1 with Translate := some a }
      let h2 :=
        match mapGet (h1.cell a) "ru" with
        | none => h1.write a (mapSet (h1.cell a) "ru" o2.Display)
        | some _ => h1
      let h3 :=
        match mapGet (h2.cell a) "en" with
        | none => h2.write a (mapSet (h2.cell a) "en" o2.Second)
        | some _ => h2
      let display :=
        if o2.Display = "" then
          match mapGet (h3.cell a) "ru" with
          | some v => v
          | none => o2.Display
        else o2.Display
      let second :=
        if o2.Second = "" then
          match mapGet (h3.cell a) "en" with
          | some v => v
          | none => o2.Second
        else o2.Second
      .ok ({ o2 with Display := display, Second := second }, h3)

/-- Order of two strings as Go compares them, given by their characters: byte order of the
UTF-8 encodings, which is the order of the code points. -/
def charsLe : List Char → List Char → Bool
  | [], _ => true
  | _ :: _, [] => false
  | a :: as, b :: bs => a.toNat < b.toNat || (a.toNat = b.toNat && charsLe as bs)

/-- Modelled from the spec: the encoder of the current wire format, which the source leaves
to the default struct encoding of `encoding/json` (section 4.1: encoding always emits the
map of translations plus the display and second fields). The unexported guard is not
emitted, a nil map is emitted as `null`, and the entries of a map are emitted in the order
of their keys. -/
def encode (o : TString) (h : Heap) : Wire :=
  .wellFormed
    [ ("display", .str o.Display),
      ("second", .str o.Second),
      ("translate",
        match o.Translate with
        | none => .null
        | some a =>
          .obj (((h.cell a).insertionSort (fun x y => charsLe x.1.data y.1.data = true)).map
            (fun e => (e.1, Scalar.str e.2)))) ]

/-! ## What a payload says, member by member -/

/-- String the members named `field` (up to letter case) give: the string of the last such
member that carries a string, and `init` when there is none. -/
def lastString (field : String) (ms : List (String × Scalar)) (init : String) : String :=
  ms.foldl
    (fun cur m =>
      if matchesField field m.1 then
        match m.2 with
        | .str s => s
        | _ => cur
      else cur) init

/-- String the top-level members named `field` (up to letter case) give: the string of the
last such member that carries a string, and `init` when there is none. -/
def topString (field : String) (p : Payload) (init : String) : String :=
  p.foldl
    (fun cur m =>
      if matchesField field m.1 then
        match m.2 with
        | .str s => s
        | _ => cur
      else cur) init

/-- Members of the `translate` objects of a payload, in document order. -/
def translateMembers : Payload → List (String × Scalar)
  | [] => []
  | m :: rest =>
    (if matchesField "translate" m.1 then
      match m.2 with
      | .obj ms => ms
      | _ => []
    else []) ++ translateMembers rest

/-- Member of a `translate` object has a type the decoder accepts: under a name that selects
`en` or `ru`, a string or `null`. -/
def bufMemberOk (m : String × Scalar) : Bool :=
  if matchesField "en" m.1 || matchesField "ru" m.1 then
    match m.2 with
    | .other => false
    | _ => true
  else true

/-- Top-level member has a type the decoder accepts: a string or `null` under `display` and
`second`, an object with acceptable members or `null` under `translate`. -/
def memberOk (m : String × JValue) : Bool :=
  if matchesField "display" m.1 || matchesField "second" m.1 then
    match m.2 with
    | .str _ => true
    | .null => true
    | _ => false
  else if matchesField "translate" m.1 then
    match m.2 with
    | .obj ms => ms.all bufMemberOk
    | .null => true
    | _ => false
  else true

/-- Payload in which every member the decoder stores has the type of its field. -/
def wellTyped (p : Payload) : Bool :=
  p.all memberOk

/-! ## A concrete lowercasing -/

/-- Lowercasing of one character, letters `A` to `Z` only. -/
def lowerChar (c : Char) : Char :=
  if 65 ≤ c.toNat ∧ c.toNat ≤ 90 then Char.ofNat (c.toNat + 32) else c

/-- `strings.ToLower` on strings whose letters are ASCII. -/
def asciiLower (s : String) : String :=
  ⟨s.data.map lowerChar⟩

/-! ## Concrete states used as instances -/

/-- Instance with translations `en: Hello` alone, and the heap holding its map. -/
def helloState : TString × Heap := NewString "en" "Hello" Heap.empty

/-- Context asking for display `fr`, fallback `en`, second `ru`, without the list. -/
def ctxFrEn : Context :=
  { GetDisplay := "fr", GetFallback := "en", GetSecond := "ru", GetTranslationList := false }

/-- Context asking for display `fr`, fallback `de`, second `en`, with the list. -/
def ctxFrDe : Context :=
  { GetDisplay := "fr", GetFallback := "de", GetSecond := "en", GetTranslationList := true }

/-- Instance with translations `en: Hello, ru: Привет`, and the heap holding its map. -/
def helloPrivet : TString × Heap :=
  ({ Display := "", Second := "", Translate := some 0, ctxApplied := false },
   { cell := Function.update (fun _ => []) 0 [("en", "Hello"), ("ru", "Привет")], next := 1 })

/-- Context asking for display `ru`, fallback `en`, second `en`, without the list. -/
def ctxRuEnOff : Context :=
  { GetDisplay := "ru", GetFallback := "en", GetSecond := "en", GetTranslationList := false }

/-- Context asking for display `ru`, fallback `en`, second `en`, with the list. -/
def ctxRuEnOn : Context :=
  { GetDisplay := "ru", GetFallback := "en", GetSecond := "en", GetTranslationList := true }

/-- Payload with display `shown`, then `translate: (en: old, fr: Salut, EN: Hi, ru: Привет)`,
then `SECOND: other`. -/
def legacyPayload : Payload :=
  [ ("display", .str "shown"),
    ("translate",
      .obj [("en", .str "old"), ("fr", .str "Salut"), ("EN", .str "Hi"), ("ru", .str "Привет")]),
    ("SECOND", .str "other") ]

/-- Zero value after `Init()`: the map is present and has no entries. -/
def emptyInit : TString × Heap := Init TString.zero Heap.empty

/-- Payload `translate: (fr: Bonjour)` without top-level display and second. -/
def frPayload : Payload :=
  [ ("translate", .obj [("fr", .str "Bonjour")]) ]

/-- Instance `NewString("fr", "Bonjour")`, and the heap holding its map. -/
def bonjourState : TString × Heap := NewString "fr" "Bonjour" Heap.empty

/-- Instance `NewString("en", "B")`, and the heap holding its map. -/
def otherB : TString × Heap := NewString "en" "B" Heap.empty

/-- Map of `o`, when it is not nil, is one of the map objects allocated in `h`. -/
def allocated (h : Heap) (o : TString) : Prop :=
  ∀ a, o.Translate = some a → a < h.next

/-- Instance with translations `en: A`, and the heap holding its map. -/
def stateA : TString × Heap :=
  ({ Display := "shown", Second := "other", Translate := some 0, ctxApplied := true },
   { cell := Function.update (Function.update (fun _ => []) 0 [("en", "A")]) 1
       [("EN", "B"), ("fr", "C")],
     next := 2 })

/-- Instance with translations `EN: B, fr: C` in the heap of `stateA`. -/
def stateB : TString :=
  { Display := "", Second := "", Translate := some 1, ctxApplied := false }

/-- Every key of `m` is lowercase: lowercasing leaves it as it is. -/
def allLower (toLower : String → String) (m : GoMap) : Prop :=
  ∀ k ∈ mapKeys m, toLower k = k

instance (toLower : String → String) (m : GoMap) : Decidable (allLower toLower m) := by
  unfold allLower
  infer_instance

/-- Instance `NewString("EN", "hi")`, and the heap holding its map. -/
def otherHi : TString × Heap := NewString "EN" "hi" Heap.empty

/-- Instance with translations `en: old, fr: Salut` in the heap of `otherHi`. -/
def lowerState : TString × Heap :=
  ({ Display := "", Second := "", Translate := some 1, ctxApplied := false },
   { cell := Function.update otherHi.2.cell 1 [("en", "old"), ("fr", "Salut")], next := 2 })

/-- Instance with translations `en: ""` and display `x`, and the heap holding its map. -/
def blankEn : TString × Heap :=
  ({ Display := "x", Second := "", Translate := some 0, ctxApplied := false },
   { cell := Function.update (fun _ => []) 0 [("en", "")], next := 1 })

/-- Instance with translations `ru: Привет`, and the heap holding its map. -/
def privetState : TString × Heap := NewString "ru" "Привет" Heap.empty

/-- Instance `NewString("en", "B")` in the heap of `emptyInit`. -/
def otherBAfterInit : TString × Heap := NewString "en" "B" emptyInit.2

/-- Payload with `Display: Bonjour`, second `Hi` and `translate: (fr: Salut, en: "")`. -/
def currentPayload : Payload :=
  [ ("Display", .str "Bonjour"), ("second", .str "Hi"),
    ("translate", .obj [("fr", .str "Salut"), ("en", .str "")]) ]

/-- Payload `translate: (en: Hi, EN: "")`. -/
def shadowedEnPayload : Payload :=
  [ ("translate", .obj [("en", .str "Hi"), ("EN", .str "")]) ]

/-- Payload `translate: (EN: Hi)`. -/
def upperEnPayload : Payload :=
  [ ("translate", .obj [("EN", .str "Hi")]) ]

/-- Whether a character is an ASCII space (code 32) or one of tab, line feed, vertical tab,
form feed and carriage return (codes 9 to 13). -/
def isAsciiSpace (c : Char) : Bool :=
  c.toNat = 32 || (9 ≤ c.toNat && c.toNat ≤ 13)

/-- `strings.TrimSpace` on strings whose white space is ASCII. -/
def asciiTrim (s : String) : String :=
  ⟨((s.data.dropWhile isAsciiSpace).reverse.dropWhile isAsciiSpace).reverse⟩

/-- Instance with translations `EN: " Hi ", fr: "Salut "`, display and guard set, and the
heap holding its map. -/
def paddedState : TString × Heap :=
  ({ Display := "shown", Second := "other", Translate := some 0, ctxApplied := true },
   { cell := Function.update (fun _ => []) 0 [("EN", " Hi "), ("fr", "Salut ")], next := 1 })

/-- Map of `r`, when it is not nil, is another map object than the map of `o`. -/
def separate (o r : TString) : Prop :=
  ∀ a, o.Translate = some a → r.Translate ≠ some a

end Translation

/-! ## Theorems -/

namespace Translation

theorem lowerChar_idem (c : Char) : lowerChar (lowerChar c) = lowerChar c := by
  unfold lowerChar
  split_ifs with h1 h2
  · exfalso
    generalize c.toNat = n at h1 h2
    obtain ⟨ha, hb⟩ := h1
    interval_cases n <;> revert h2 <;> decide
  · rfl
  · rfl

theorem asciiLower_idem (s : String) : asciiLower (asciiLower s) = asciiLower s := by
  have hc : lowerChar ∘ lowerChar = lowerChar := funext lowerChar_idem
  simp [asciiLower, hc]

/-- C1: resolution is idempotent. Whatever the receiver (nil pointer, resolved or not) and
whatever the two contexts, resolving under `c1` and then under `c2` leaves the struct
(display, second, map reference and guard) exactly as resolving under `c1` alone; the call
takes the heap read-only, so the entries of the map are untouched as well. -/
theorem ApplyTranslationCtx_idempotent (o : Option TString) (h : Heap) (c1 c2 : Context) :
    ApplyTranslationCtx (ApplyTranslationCtx o h c1) h c2 = ApplyTranslationCtx o h c1 := by
  cases o with
  | none => rfl
  | some s =>
    by_cases hg : s.ctxApplied = true
    · simp [ApplyTranslationCtx, hg]
    · simp [ApplyTranslationCtx, hg]

/-- C2: on a receiver whose guard is false, resolution sets display to the entry of the
display language when that entry is present and non-empty, and to the entry of the fallback
language otherwise (the empty string when there is none); it sets second to the entry of
the second language (the empty string when there is none) and sets the guard. The previous
display and second play no role. -/
theorem ApplyTranslationCtx_resolves (s : TString) (h : Heap) (c : Context)
    (hg : s.ctxApplied = false) :
    ∃ s', ApplyTranslationCtx (some s) h c = some s' ∧
      (∀ str, mapGet (translations h s) c.GetDisplay = some str → str ≠ "" →
        s'.Display = str) ∧
      (mapGet (translations h s) c.GetDisplay = none ∨
          mapGet (translations h s) c.GetDisplay = some "" →
        s'.Display = (mapGet (translations h s) c.GetFallback).getD "") ∧
      s'.Second = (mapGet (translations h s) c.GetSecond).getD "" ∧
      s'.ctxApplied = true := by
  refine ⟨_, by simp [ApplyTranslationCtx, hg]; rfl, ?_, ?_, ?_, ?_⟩
  · intro str hstr hne
    simp [hstr, hne]
  · rintro (hn | he)
    · simp [hn, mapIndex]
    · simp [he, mapIndex]
  · simp [mapIndex]
  · rfl

/-- Witness of C2 on translations `en: Hello`: display `fr` with fallback `en` resolves to
`Hello`, and with fallback `de` to the empty string. -/
theorem ApplyTranslationCtx_resolves_witness :
    (∃ s', ApplyTranslationCtx (some helloState.1) helloState.2 ctxFrEn = some s' ∧
      s'.Display = "Hello" ∧ s'.Second = "" ∧ s'.ctxApplied = true) ∧
    (∃ s', ApplyTranslationCtx (some helloState.1) helloState.2 ctxFrDe = some s' ∧
      s'.Display = "" ∧ s'.Second = "Hello" ∧ s'.ctxApplied = true) := by
  constructor
  · obtain ⟨s', he, _, hd, hs, hg⟩ :=
      ApplyTranslationCtx_resolves helloState.1 helloState.2 ctxFrEn (by decide)
    exact ⟨s', he, by rw [hd (Or.inl (by decide))]; decide, by rw [hs]; decide, hg⟩
  · obtain ⟨s', he, _, hd, hs, hg⟩ :=
      ApplyTranslationCtx_resolves helloState.1 helloState.2 ctxFrDe (by decide)
    exact ⟨s', he, by rw [hd (Or.inl (by decide))]; decide, by rw [hs]; decide, hg⟩

/-- C3: on a receiver whose guard is false, a context whose translation list is off leaves
the receiver without a map (no entries) while display and second hold what the entries of
the map before the call resolve to; a context whose translation list is on leaves the map
reference, and with it the entries, exactly as they were. -/
theorem ApplyTranslationCtx_translation_list (s : TString) (h : Heap) (c : Context)
    (hg : s.ctxApplied = false) :
    ∃ s', ApplyTranslationCtx (some s) h c = some s' ∧
      (c.GetTranslationList = false →
        s'.Translate = none ∧ translations h s' = [] ∧
        (∀ str, mapGet (translations h s) c.GetDisplay = some str → str ≠ "" →
          s'.Display = str) ∧
        (mapGet (translations h s) c.GetDisplay = none ∨
            mapGet (translations h s) c.GetDisplay = some "" →
          s'.Display = (mapGet (translations h s) c.GetFallback).getD "") ∧
        s'.Second = (mapGet (translations h s) c.GetSecond).getD "") ∧
      (c.GetTranslationList = true →
        s'.Translate = s.Translate ∧ translations h s' = translations h s) := by
  refine ⟨_, by simp [ApplyTranslationCtx, hg]; rfl, ?_, ?_⟩
  · intro hl
    refine ⟨by simp [hl], by simp [hl, translations, entries], ?_, ?_, ?_⟩
    · intro str hstr hne
      simp [hstr, hne]
    · rintro (hn | he)
      · simp [hn, mapIndex]
      · simp [he, mapIndex]
    · simp [mapIndex]
  · intro hl
    exact ⟨by simp [hl], by simp [hl, translations]⟩

/-- Witness of C3 on translations `en: Hello, ru: Привет` with display `ru`, second `en`:
with the list off the map is gone and display and second are resolved; with the list on
the two entries are still there. -/
theorem ApplyTranslationCtx_translation_list_witness :
    (∃ s', ApplyTranslationCtx (some helloPrivet.1) helloPrivet.2 ctxRuEnOff = some s' ∧
      s'.Translate = none ∧ translations helloPrivet.2 s' = [] ∧
      s'.Display = "Привет" ∧ s'.Second = "Hello") ∧
    (∃ s', ApplyTranslationCtx (some helloPrivet.1) helloPrivet.2 ctxRuEnOn = some s' ∧
      translations helloPrivet.2 s' = [("en", "Hello"), ("ru", "Привет")]) := by
  constructor
  · obtain ⟨s', he, hoff, _⟩ :=
      ApplyTranslationCtx_translation_list helloPrivet.1 helloPrivet.2 ctxRuEnOff (by decide)
    obtain ⟨hn, ht, hd, _, hs⟩ := hoff (by decide)
    exact ⟨s', he, hn, ht, hd "Привет" (by decide) (by decide), by rw [hs]; decide⟩
  · obtain ⟨s', he, _, hon⟩ :=
      ApplyTranslationCtx_translation_list helloPrivet.1 helloPrivet.2 ctxRuEnOn (by decide)
    exact ⟨s', he, by rw [(hon (by decide)).2]; decide⟩

/-- C4 at its failing input: the receiver is the zero value after `Init()`, so its map is
present and empty. `Clone` hands the clone the same map object, and `AddTranslate("en",
"Hi")` on the clone makes the entry `en: Hi` appear in the translations of the original. -/
theorem Clone_shares_empty_map :
    emptyInit.1.Translate = some 0 ∧ translations emptyInit.2 emptyInit.1 = [] ∧
    ∃ y h1 y' h2, Clone (some emptyInit.1) emptyInit.2 = (some y, h1) ∧
      y.Translate = emptyInit.1.Translate ∧
      AddTranslate y "en" "Hi" h1 = .ok (y', h2) ∧
      translations h2 emptyInit.1 = [("en", "Hi")] :=
  ⟨by decide, by decide, _, _, _, _, rfl, by decide, rfl, by decide⟩

/-- C6 at its failing input: the payload `translate: (fr: Bonjour)` decoded into the zero
value leaves translations `ru: "", en: ""`; the `fr` entry of the payload is not kept. -/
theorem UnmarshalJSON_drops_languages :
    ∃ o' h', UnmarshalJSON TString.zero (.wellFormed frPayload) Heap.empty = .ok (o', h') ∧
      translations h' o' = [("ru", ""), ("en", "")] ∧
      mapGet (translations h' o') "fr" = none :=
  ⟨_, _, rfl, by decide, by decide⟩

/-- C7 at its failing input: `NewString("fr", "Bonjour")` encoded in the current wire format
and decoded into the zero value yields translations `ru: "", en: ""`, in which `fr` has no
entry, while the original holds `fr: Bonjour`. -/
theorem roundtrip_loses_translation :
    mapGet (translations bonjourState.2 bonjourState.1) "fr" = some "Bonjour" ∧
    ∃ o' h', UnmarshalJSON TString.zero (encode bonjourState.1 bonjourState.2) bonjourState.2 =
        .ok (o', h') ∧
      translations h' o' = [("ru", ""), ("en", "")] ∧
      mapGet (translations h' o') "fr" = none :=
  ⟨by decide, _, _, rfl, by decide, by decide⟩

/-- C10 at its failing input: `Join` on the zero value, whose map is nil, with the other
`NewString("en", "B")` faults on the write into the nil map, whatever the separator and the
lowercasing. -/
theorem Join_zero_value_faults (toLower : String → String) (s : String) :
    Join toLower TString.zero otherB.1 s otherB.2 = .error .assignNilMap :=
  rfl

/-! ### Maps -/

theorem mapGet_mapSet (m : GoMap) (k v k' : String) :
    mapGet (mapSet m k v) k' = if k = k' then some v else mapGet m k' := by
  induction m with
  | nil => simp [mapSet, mapGet]
  | cons e rest ih =>
    obtain ⟨k0, v0⟩ := e
    by_cases h0 : k0 = k
    · subst h0
      by_cases h1 : k0 = k' <;> simp [mapSet, mapGet, h1]
    · by_cases h1 : k0 = k'
      · subst h1
        have h2 : ¬ k = k0 := fun h => h0 h.symm
        simp [mapSet, mapGet, h0, h2]
      · simp [mapSet, mapGet, h0, h1, ih]

theorem mapGet_eq_none_iff (m : GoMap) (k : String) : mapGet m k = none ↔ k ∉ mapKeys m := by
  induction m with
  | nil => simp [mapGet, mapKeys]
  | cons e rest ih =>
    obtain ⟨k0, v0⟩ := e
    by_cases h0 : k0 = k
    · simp [mapGet, mapKeys, h0]
    · have h1 : ¬ k = k0 := fun h => h0 h.symm
      simpa [mapGet, mapKeys, h0, h1] using ih

theorem mem_mapKeys_mapSet (m : GoMap) (k v x : String) :
    x ∈ mapKeys (mapSet m k v) ↔ x ∈ mapKeys m ∨ x = k := by
  induction m with
  | nil => simp [mapSet, mapKeys]
  | cons e rest ih =>
    obtain ⟨k0, v0⟩ := e
    by_cases h0 : k0 = k
    · subst h0
      simp only [mapSet, mapKeys, if_true, List.map_cons, List.mem_cons]
      tauto
    · simp only [mapKeys] at ih
      simp [mapSet, mapKeys, h0, ih, or_assoc]

theorem mapSet_of_not_mem (m : GoMap) (k v : String) (hk : k ∉ mapKeys m) :
    mapSet m k v = m ++ [(k, v)] := by
  induction m with
  | nil => simp [mapSet]
  | cons e rest ih =>
    obtain ⟨k0, v0⟩ := e
    simp only [mapKeys, List.map_cons, List.mem_cons, not_or] at hk
    have h0 : ¬ k0 = k := fun h => hk.1 h.symm
    have := ih (by simpa [mapKeys] using hk.2)
    simp [mapSet, h0, this]

/-- Copying a map entry by entry into a map without entries rebuilds the same entries. -/
theorem foldl_mapSet_copy (m acc : GoMap) (hnd : (mapKeys (acc ++ m)).Nodup) :
    m.foldl (fun acc e => mapSet acc e.1 e.2) acc = acc ++ m := by
  induction m generalizing acc with
  | nil => simp
  | cons e rest ih =>
    have hk : e.1 ∉ mapKeys acc := by
      simp only [mapKeys, List.map_append, List.map_cons] at hnd
      have := (List.nodup_append.1 hnd).2.2
      intro hmem
      exact this hmem (List.mem_cons_self _ _) 
    rw [List.foldl_cons, mapSet_of_not_mem acc e.1 e.2 hk, ih]
    · simp
    · simpa using hnd

/-! ### The heap and range loops -/

theorem Heap.write_write (h : Heap) (a : Nat) (x y : GoMap) :
    (h.write a x).write a y = h.write a y := by
  simp [Heap.write]

theorem Heap.write_cell_self (h : Heap) (a : Nat) : h.write a (h.cell a) = h := by
  simp [Heap.write]

theorem forRange_assign (a : Nat) (key : String × String → String)
    (val : GoMap → String × String → String) (m : GoMap) (h : Heap) :
    forRange m (fun hh e => mapassign hh (some a) (key e) (val (hh.cell a) e)) h =
      .ok (h.write a (m.foldl (fun acc e => mapSet acc (key e) (val acc e)) (h.cell a))) := by
  induction m generalizing h with
  | nil => simp [forRange, Heap.write_cell_self]; rfl
  | cons e rest ih =>
    unfold forRange at ih ⊢
    rw [List.foldlM_cons]
    show List.foldlM _ (h.write a (mapSet (h.cell a) (key e) (val (h.cell a) e))) rest = _
    rw [ih]
    simp [Heap.write]

/-! ### Join -/

/-- Effect of one iteration of the loop of `Join` on the entries of the joined map. -/
theorem joinStep_get (toLower : String → String) (s : String) (acc : GoMap)
    (e : String × String) (k : String) :
    mapGet (mapSet acc (toLower e.1)
        (match mapGet acc (toLower e.1) with
          | none => e.2
          | some cur => cur ++ (s ++ e.2))) k =
      if toLower e.1 = k then
        some (match mapGet acc (toLower e.1) with
          | none => e.2
          | some cur => cur ++ (s ++ e.2))
      else mapGet acc k :=
  mapGet_mapSet _ _ _ _

theorem joinFold_untouched (toLower : String → String) (s : String) (b : GoMap) (acc : GoMap)
    (k : String) (hk : ∀ e ∈ b, toLower e.1 ≠ k) :
    mapGet (b.foldl (fun acc e => mapSet acc (toLower e.1)
        (match mapGet acc (toLower e.1) with
          | none => e.2
          | some cur => cur ++ (s ++ e.2))) acc) k = mapGet acc k := by
  induction b generalizing acc with
  | nil => rfl
  | cons e rest ih =>
    rw [List.foldl_cons, ih _ (fun e' he' => hk e' (List.mem_cons_of_mem _ he')),
      joinStep_get, if_neg (hk e (List.mem_cons_self _ _))]

theorem joinFold_hit (toLower : String → String) (s : String) (b : GoMap) (acc : GoMap)
    (hb : (b.map (fun e => toLower e.1)).Nodup) (e : String × String) (he : e ∈ b) :
    mapGet (b.foldl (fun acc e => mapSet acc (toLower e.1)
        (match mapGet acc (toLower e.1) with
          | none => e.2
          | some cur => cur ++ (s ++ e.2))) acc) (toLower e.1) =
      some (match mapGet acc (toLower e.1) with
          | none => e.2
          | some cur => cur ++ (s ++ e.2)) := by
  induction b generalizing acc with
  | nil => simp at he
  | cons e0 rest ih =>
    rw [List.map_cons, List.nodup_cons] at hb
    rw [List.foldl_cons]
    rcases List.mem_cons.1 he with h0 | hrest
    · subst h0
      rw [joinFold_untouched, joinStep_get, if_pos rfl]
      intro e' he' heq
      exact hb.1 (List.mem_map.2 ⟨e', he', heq⟩)
    · have hne : toLower e0.1 ≠ toLower e.1 := by
        intro heq
        exact hb.1 (List.mem_map.2 ⟨e, hrest, heq.symm⟩)
      rw [ih _ hb.2 hrest, joinStep_get, if_neg hne]

theorem joinLoop_eq (toLower : String → String) (s : String) (n : Nat) (j : TString)
    (hj : j.Translate = some n) (m : GoMap) (h : Heap) :
    forRange m
        (fun hh e =>
          let lang := toLower e.1
          match mapGet (translations hh j) lang with
          | none => mapassign hh j.Translate lang e.2
          | some cur => mapassign hh j.Translate lang (cur ++ (s ++ e.2))) h =
      .ok (h.write n (m.foldl (fun acc e => mapSet acc (toLower e.1)
        (match mapGet acc (toLower e.1) with
          | none => e.2
          | some cur => cur ++ (s ++ e.2))) (h.cell n))) := by
  rw [← forRange_assign n (fun e => toLower e.1)
    (fun acc e => match mapGet acc (toLower e.1) with
      | none => e.2
      | some cur => cur ++ (s ++ e.2)) m h]
  congr 1
  funext hh e
  simp only [translations, entries, hj]
  cases mapGet (hh.cell n) (toLower e.1) <;> rfl

/-- Result of `Clone` on a receiver whose map has entries: a new map object with the same entries. -/
theorem Clone_of_entries (o : TString) (h : Heap) (a : Nat) (ha : o.Translate = some a)
    (hne : h.cell a ≠ []) (hwf : (mapKeys (h.cell a)).Nodup) :
    Clone (some o) h =
      (some { o with Translate := some h.next },
        (h.alloc []).2.write h.next (h.cell a)) := by
  have hlen : (h.cell a).length > 0 := List.length_pos.2 hne
  have hcopy := foldl_mapSet_copy (h.cell a) [] (by simpa using hwf)
  simp only [List.nil_append] at hcopy
  simp [Clone, translations, entries, ha, hlen, Heap.alloc, hcopy]

/-- C9: Join semantics. For a receiver whose map has at least one entry (one entry per key),
another instance whose keys are pairwise distinct after lowercasing and whose map is an
allocated one, and any separator, `Join` returns an instance with display and second empty
and the guard false; for each entry `(lang, text)` of the other, at `k = toLower lang` the
result holds `text` when the receiver has no entry at `k` and the receiver's value followed
by the separator and `text` when it has one (the empty string included); at every key that
no entry of the other hits, the result has what the receiver has. -/
theorem Join_semantics (toLower : String → String) (o r : TString) (s : String) (h : Heap)
    (a : Nat) (ha : o.Translate = some a) (hne : h.cell a ≠ [])
    (hwf : (mapKeys (h.cell a)).Nodup) (hr : allocated h r)
    (hb : ((translations h r).map (fun e => toLower e.1)).Nodup) :
    ∃ j h', Join toLower o r s h = .ok (j, h') ∧
      j.Display = "" ∧ j.Second = "" ∧ j.ctxApplied = false ∧
      (∀ lang text, (lang, text) ∈ translations h r →
        (mapGet (translations h o) (toLower lang) = none →
          mapGet (translations h' j) (toLower lang) = some text) ∧
        (∀ cur, mapGet (translations h o) (toLower lang) = some cur →
          mapGet (translations h' j) (toLower lang) = some (cur ++ s ++ text))) ∧
      (∀ k, (∀ lang text, (lang, text) ∈ translations h r → toLower lang ≠ k) →
        mapGet (translations h' j) k = mapGet (translations h o) k) := by
  have hrr : translations ((h.alloc []).2.write h.next (h.cell a)) r = translations h r := by
    cases hrt : r.Translate with
    | none => simp [translations, entries, hrt]
    | some b =>
      have hlt : b ≠ h.next := Nat.ne_of_lt (hr b hrt)
      simp [translations, entries, hrt, Heap.alloc, Heap.write, Function.update, hlt]
  have hcell : ((h.alloc []).2.write h.next (h.cell a)).cell h.next = h.cell a := by
    simp [Heap.alloc, Heap.write]
  have hJ : Join toLower o r s h =
      .ok (resetTranslation { o with Translate := some h.next },
        ((h.alloc []).2.write h.next (h.cell a)).write h.next
          ((translations h r).foldl (fun acc e => mapSet acc (toLower e.1)
            (match mapGet acc (toLower e.1) with
              | none => e.2
              | some cur => cur ++ (s ++ e.2))) (h.cell a))) := by
    unfold Join
    rw [Clone_of_entries o h a ha hne hwf]
    simp only
    rw [joinLoop_eq toLower s h.next _ rfl, hrr, hcell]
  have ho : translations h o = h.cell a := by simp [translations, entries, ha]
  refine ⟨_, _, hJ, rfl, rfl, rfl, ?_, ?_⟩
  · intro lang text hmem
    have hhit := joinFold_hit toLower s (translations h r) (h.cell a) hb (lang, text) hmem
    simp only [translations, entries, resetTranslation, Heap.write, Function.update_same]
      at hhit ⊢
    rw [ha]
    constructor
    · intro hnone
      simp only [hnone] at hhit
      simpa [translations, entries] using hhit
    · intro cur hcur
      simp only [hcur] at hhit
      simpa [translations, entries, String.append_assoc] using hhit
  · intro k hk
    have hun := joinFold_untouched toLower s (translations h r) (h.cell a) k
      (fun e he => hk e.1 e.2 he)
    simp only [translations, entries, resetTranslation, Heap.write, Function.update_same]
      at hun ⊢
    rw [ha]
    simpa [translations, entries] using hun

/-- Witness of C9: `en: A` joined with `EN: B, fr: C` and separator `-` yields
`en: A-B, fr: C`, with display, second and guard cleared. -/
theorem Join_semantics_witness :
    ∃ j h', Join asciiLower stateA.1 stateB "-" stateA.2 = .ok (j, h') ∧
      j.Display = "" ∧ j.Second = "" ∧ j.ctxApplied = false ∧
      mapGet (translations h' j) "en" = some "A-B" ∧
      mapGet (translations h' j) "fr" = some "C" ∧
      mapGet (translations h' j) "de" = none := by
  obtain ⟨j, h', hJ, hd, hs, hg, hhit, hun⟩ :=
    Join_semantics asciiLower stateA.1 stateB "-" stateA.2 0 rfl (by decide) (by decide)
      (by intro a ha; cases ha; decide) (by decide)
  refine ⟨j, h', hJ, hd, hs, hg, ?_, ?_, ?_⟩
  · exact (hhit "EN" "B" (by decide)).2 "A" (by decide)
  · exact (hhit "fr" "C" (by decide)).1 (by decide)
  · rw [hun "de" ?_]
    · decide
    · intro lang text hmem
      have hB : translations stateA.2 stateB = [("EN", "B"), ("fr", "C")] := by decide
      rw [hB] at hmem
      simp only [List.mem_cons, Prod.mk.injEq, List.mem_singleton, List.not_mem_nil,
        or_false] at hmem
      rcases hmem with ⟨rfl, _⟩ | ⟨rfl, _⟩ <;> decide

/-! ### Keys written by the range loops -/

theorem mem_mapKeys_foldl (key : String × String → String)
    (val : GoMap → String × String → String) (m acc : GoMap) (x : String)
    (hx : x ∈ mapKeys (m.foldl (fun acc e => mapSet acc (key e) (val acc e)) acc)) :
    x ∈ mapKeys acc ∨ ∃ e ∈ m, x = key e := by
  induction m generalizing acc with
  | nil => exact Or.inl hx
  | cons e rest ih =>
    rw [List.foldl_cons] at hx
    rcases ih _ hx with h1 | ⟨e', he', hk⟩
    · rcases (mem_mapKeys_mapSet _ _ _ _).1 h1 with h2 | h2
      · exact Or.inl h2
      · exact Or.inr ⟨e, List.mem_cons_self _ _, h2⟩
    · exact Or.inr ⟨e', List.mem_cons_of_mem _ he', hk⟩

theorem allLower_foldl (toLower : String → String)
    (hidem : ∀ s, toLower (toLower s) = toLower s)
    (val : GoMap → String × String → String) (m acc : GoMap) (hacc : allLower toLower acc) :
    allLower toLower (m.foldl (fun acc e => mapSet acc (toLower e.1) (val acc e)) acc) := by
  intro k hk
  rcases mem_mapKeys_foldl (fun e => toLower e.1) val m acc k hk with h1 | ⟨e, _, he⟩
  · exact hacc k h1
  · rw [he, hidem]

theorem allLower_nil (toLower : String → String) : allLower toLower [] := by
  intro k hk
  simp [mapKeys] at hk

theorem Init_translate (o : TString) (h : Heap) :
    ∃ n, (Init o h).1.Translate = some n ∧
      (Init o h).2.cell n = translations h o ∧
      (Init o h).1.Display = o.Display ∧ (Init o h).1.Second = o.Second ∧
      (Init o h).1.ctxApplied = o.ctxApplied := by
  cases ht : o.Translate with
  | none => exact ⟨h.next, by simp [Init, ht, Heap.alloc, translations, entries]⟩
  | some a => exact ⟨a, by simp [Init, ht, translations, entries]⟩

/-- Result of `Update`: it never faults, and the receiver's map holds the old entries
overwritten, in iteration order, at the lowercased keys of the argument. -/
theorem Update_eval (toLower : String → String) (o r : TString) (h : Heap) :
    ∃ n, (Init o h).1.Translate = some n ∧
      Update toLower o r h =
        .ok ((Init o h).1, (Init o h).2.write n
          ((translations (Init o h).2 r).foldl
            (fun acc e => mapSet acc (toLower e.1) e.2) (translations h o))) := by
  obtain ⟨n, hn, hc, _⟩ := Init_translate o h
  refine ⟨n, hn, ?_⟩
  unfold Update
  simp only [hn]
  rw [forRange_assign n (fun e => toLower e.1) (fun _ e => e.2), hc]

/-- Result of `Add`: it never faults, and the receiver's map holds the old entries with the
argument's texts appended, in iteration order, at the lowercased keys. -/
theorem Add_eval (toLower : String → String) (o r : TString) (h : Heap) :
    ∃ n, (Init o h).1.Translate = some n ∧
      Add toLower o r h =
        .ok ((Init o h).1, (Init o h).2.write n
          ((translations (Init o h).2 r).foldl
            (fun acc e => mapSet acc (toLower e.1) (mapIndex acc (toLower e.1) ++ e.2))
            (translations h o))) := by
  obtain ⟨n, hn, hc, _⟩ := Init_translate o h
  refine ⟨n, hn, ?_⟩
  unfold Add
  simp only [hn, translations, entries]
  rw [forRange_assign n (fun e => toLower e.1)
    (fun acc e => mapIndex acc (toLower e.1) ++ e.2), hc]
  rfl

/-- Result of `Map` on a receiver with entries: it never faults, and the returned instance
holds a new map with the transformed values at the lowercased keys. -/
theorem Map_eval (toLower : String → String) (o : TString) (f : String → String) (h : Heap)
    (hne : translations h o ≠ []) :
    Map toLower o f h =
      .ok ({ TString.zero with Translate := some h.next },
        (h.alloc []).2.write h.next
          ((translations (h.alloc []).2 o).foldl
            (fun acc e => mapSet acc (toLower e.1) (f e.2)) [])) := by
  have hlen : ¬ (translations h o).length = 0 := by
    simpa [List.length_eq_zero] using hne
  unfold Map
  rw [if_neg hlen]
  have hI : Init TString.zero h = ({ TString.zero with Translate := some h.next }, (h.alloc []).2) :=
    rfl
  rw [hI]
  simp only
  rw [forRange_assign h.next (fun e => toLower e.1) (fun _ e => f e.2)]
  simp [Heap.alloc]

/-! ### Key normalization -/

theorem Clone_eval (o : TString) (h : Heap) :
    Clone (some o) h =
      if (translations h o).length > 0 then
        (some { o with Translate := some h.next },
          (h.alloc []).2.write h.next
            ((translations h o).foldl (fun acc e => mapSet acc e.1 e.2) []))
      else (some o, h) := by
  simp [Clone, Heap.alloc]

theorem Join_allLower (toLower : String → String)
    (hidem : ∀ s, toLower (toLower s) = toLower s) (o r : TString) (s : String) (h : Heap)
    (hlow : allLower toLower (translations h o))
    (hok : o.Translate ≠ none ∨ translations h r = []) :
    ∃ j h', Join toLower o r s h = .ok (j, h') ∧ allLower toLower (translations h' j) := by
  unfold Join
  rw [Clone_eval]
  by_cases hlen : (translations h o).length > 0
  · rw [if_pos hlen]
    dsimp only
    rw [joinLoop_eq toLower s h.next (resetTranslation { o with Translate := some h.next }) rfl]
    refine ⟨_, _, rfl, ?_⟩
    simp only [translations, entries, resetTranslation, Heap.write, Function.update_same]
    apply allLower_foldl toLower hidem
    intro k hk
    rcases mem_mapKeys_foldl (fun e => e.1) (fun _ e => e.2) _ _ k hk with h1 | ⟨e, he, hke⟩
    · simp [mapKeys] at h1
    · exact hlow k (by rw [hke]; exact List.mem_map.2 ⟨e, he, rfl⟩)
  · rw [if_neg hlen]
    dsimp only
    cases ht : o.Translate with
    | none =>
      have hr : translations h r = [] := by
        rcases hok with h1 | h1
        · exact absurd ht h1
        · exact h1
      rw [hr]
      refine ⟨_, _, rfl, ?_⟩
      simp only [translations, entries, resetTranslation, ht]
      exact allLower_nil toLower
    | some a =>
      rw [joinLoop_eq toLower s a (resetTranslation o) (by simp [resetTranslation, ht])]
      refine ⟨_, _, rfl, ?_⟩
      simp only [translations, entries, resetTranslation, ht, Heap.write, Function.update_same]
      apply allLower_foldl toLower hidem
      simpa [translations, entries, ht] using hlow

theorem Init_frame (o r : TString) (h : Heap) (hr : allocated h r) :
    translations (Init o h).2 r = translations h r := by
  cases ht : o.Translate with
  | some a => simp [Init, ht]
  | none =>
    cases hrt : r.Translate with
    | none => simp [translations, entries, hrt]
    | some b =>
      have hlt : b ≠ h.next := Nat.ne_of_lt (hr b hrt)
      simp [Init, ht, translations, entries, hrt, Heap.alloc, Function.update, hlt]

/-- C8, amended: key normalization. For a receiver whose keys are all lowercase,
`Update` and `Add` return with every key of the receiver lowercase, and `Join`, when the
receiver has a map or the other has no entries, returns an instance whose keys are all
lowercase; `Map` returns an instance whose keys are all lowercase for every receiver. After
`Update` with the single entry `EN: hi` on such a receiver, `GetTranslate("en")` is `hi` and
`GetTranslate("EN")` is the empty string. The lowercasing is any idempotent function. -/
theorem key_normalization (toLower : String → String)
    (hidem : ∀ s, toLower (toLower s) = toLower s)
    (o r : TString) (f : String → String) (s : String) (h : Heap) :
    (allLower toLower (translations h o) →
      (∃ o' h', Update toLower o r h = .ok (o', h') ∧ allLower toLower (translations h' o')) ∧
      (∃ o' h', Add toLower o r h = .ok (o', h') ∧ allLower toLower (translations h' o')) ∧
      (o.Translate ≠ none ∨ translations h r = [] →
        ∃ j h', Join toLower o r s h = .ok (j, h') ∧ allLower toLower (translations h' j)) ∧
      (toLower "EN" = "en" → allocated h r → translations h r = [("EN", "hi")] →
        ∃ o' h', Update toLower o r h = .ok (o', h') ∧
          GetTranslate o' h' "en" = "hi" ∧ GetTranslate o' h' "EN" = "")) ∧
    (∃ j h', Map toLower o f h = .ok (j, h') ∧ allLower toLower (translations h' j)) := by
  constructor
  · intro hlow
    refine ⟨?_, ?_, ?_, ?_⟩
    · obtain ⟨n, hn, hU⟩ := Update_eval toLower o r h
      refine ⟨_, _, hU, ?_⟩
      simp only [translations, entries, hn, Heap.write, Function.update_same]
      exact allLower_foldl toLower hidem (fun _ e => e.2) _ _ hlow
    · obtain ⟨n, hn, hA⟩ := Add_eval toLower o r h
      refine ⟨_, _, hA, ?_⟩
      simp only [translations, entries, hn, Heap.write, Function.update_same]
      exact allLower_foldl toLower hidem (fun acc e => mapIndex acc (toLower e.1) ++ e.2)
        _ _ hlow
    · intro hok
      exact Join_allLower toLower hidem o r s h hlow hok
    · intro hEN hr hrt
      obtain ⟨n, hn, hU⟩ := Update_eval toLower o r h
      rw [Init_frame o r h hr, hrt] at hU
      refine ⟨_, _, hU, ?_, ?_⟩
      · simp [GetTranslate, translations, entries, hn, Heap.write, mapIndex, mapGet_mapSet,
          hEN]
      · have hnot : mapGet (translations h o) "EN" = none := by
          rw [mapGet_eq_none_iff]
          intro hmem
          have := hlow "EN" hmem
          rw [hEN] at this
          exact absurd this (by decide)
        simp only [GetTranslate, translations, entries, hn, Heap.write, mapIndex,
          Function.update_same, List.foldl_cons, List.foldl_nil, mapGet_mapSet, hEN]
        simp only [translations, entries] at hnot
        rw [if_neg (by decide), hnot]
        rfl
  · by_cases hne : translations h o = []
    · refine ⟨TString.zero, h, by simp [Map, hne], ?_⟩
      simp only [translations, entries, TString.zero]
      exact allLower_nil toLower
    · refine ⟨_, _, Map_eval toLower o f h hne, ?_⟩
      simp only [translations, entries, Heap.write, Function.update_same]
      exact allLower_foldl toLower hidem (fun _ e => f e.2) _ _ (allLower_nil toLower)

/-- Witness of C8 as amended: the receiver `en: old, fr: Salut` and the other `EN: hi`.
Every hypothesis holds there, `Update` yields `GetTranslate("en") = hi` and
`GetTranslate("EN") = ""`, and the four operations return lowercase keys. -/
theorem key_normalization_witness :
    allLower asciiLower (translations lowerState.2 lowerState.1) ∧
    (∃ o' h', Update asciiLower lowerState.1 otherHi.1 lowerState.2 = .ok (o', h') ∧
      GetTranslate o' h' "en" = "hi" ∧ GetTranslate o' h' "EN" = "") ∧
    (∃ o' h', Update asciiLower lowerState.1 otherHi.1 lowerState.2 = .ok (o', h') ∧
      allLower asciiLower (translations h' o')) ∧
    (∃ o' h', Add asciiLower lowerState.1 otherHi.1 lowerState.2 = .ok (o', h') ∧
      allLower asciiLower (translations h' o')) ∧
    (∃ j h', Join asciiLower lowerState.1 otherHi.1 "-" lowerState.2 = .ok (j, h') ∧
      allLower asciiLower (translations h' j)) ∧
    (∃ j h', Map asciiLower lowerState.1 id lowerState.2 = .ok (j, h') ∧
      allLower asciiLower (translations h' j)) := by
  obtain ⟨hA, hM⟩ :=
    key_normalization asciiLower asciiLower_idem lowerState.1 otherHi.1 id "-" lowerState.2
  obtain ⟨hU, hAdd, hJ, hE⟩ := hA (by decide)
  exact ⟨by decide, hE (by decide) (by intro a ha; cases ha; decide) (by decide), hU, hAdd,
    hJ (Or.inl (by decide)), hM⟩

/-- C8 as stated fails: a receiver built by `AddTranslate("EN", "x")` on the zero value
keeps its key `EN` through `Update` with the entry `EN: hi`; afterwards the key `EN` is
still there, it is not lowercase, and `GetTranslate("EN")` is `x`, not the empty string. -/
theorem Update_keeps_uppercase_key :
    ∃ o1 h1 o2 h2, AddTranslate TString.zero "EN" "x" otherHi.2 = .ok (o1, h1) ∧
      Update asciiLower o1 otherHi.1 h1 = .ok (o2, h2) ∧
      "EN" ∈ mapKeys (translations h2 o2) ∧ asciiLower "EN" ≠ "EN" ∧
      ¬ allLower asciiLower (translations h2 o2) ∧
      GetTranslate o2 h2 "en" = "hi" ∧ GetTranslate o2 h2 "EN" = "x" :=
  ⟨_, _, _, _, rfl, rfl, by decide, by decide, by decide, by decide, by decide⟩

/-! ### Emptiness and length -/

theorem utf8ByteSize_go_eq_zero (cs : List Char) :
    String.utf8ByteSize.go cs = 0 ↔ cs = [] := by
  cases cs with
  | nil => simp [String.utf8ByteSize.go]
  | cons c rest =>
    have hpos := c.utf8Size_pos
    constructor
    · intro h0
      rw [String.utf8ByteSize.go] at h0
      omega
    · intro h0
      cases h0

theorem utf8ByteSize_eq_zero (s : String) : s.utf8ByteSize = 0 ↔ s = "" := by
  obtain ⟨cs⟩ := s
  rw [show (String.mk cs).utf8ByteSize = String.utf8ByteSize.go cs from rfl,
    utf8ByteSize_go_eq_zero]
  constructor
  · intro h
    rw [h]
  · intro h
    exact congrArg String.data h

/-- C11: emptiness queries. `Empty()` is true exactly when every value of the translations
has zero length, which holds in particular when the map has no entries or is nil;
`HasTranslation()` is true exactly when `Empty()` is false or display is non-empty or
second is non-empty. On translations `en: ""` with display `x`, `Empty()` is true and
`HasTranslation()` is true. -/
theorem Empty_HasTranslation (o : TString) (h : Heap) :
    (Empty o h = true ↔ ∀ e ∈ translations h o, e.2.utf8ByteSize = 0) ∧
    (Empty o h = true ↔ ∀ e ∈ translations h o, e.2 = "") ∧
    (translations h o = [] → Empty o h = true) ∧
    (HasTranslation o h = true ↔ Empty o h = false ∨ o.Display ≠ "" ∨ o.Second ≠ "") ∧
    Empty blankEn.1 blankEn.2 = true ∧ HasTranslation blankEn.1 blankEn.2 = true := by
  have h1 : Empty o h = true ↔ ∀ e ∈ translations h o, e.2.utf8ByteSize = 0 := by
    simp [Empty, List.all_eq_true]
  refine ⟨h1, ?_, ?_, ?_, by decide, by decide⟩
  · rw [h1]
    constructor
    · intro hz e he
      exact (utf8ByteSize_eq_zero e.2).1 (hz e he)
    · intro hz e he
      exact (utf8ByteSize_eq_zero e.2).2 (hz e he)
  · intro hnil
    rw [h1, hnil]
    intro e he
    simp at he
  · cases hE : Empty o h <;> simp [HasTranslation, hE]

theorem lenFold_spec (m : GoMap) (ln : Nat) :
    ln ≤ m.foldl (fun ln e => if e.2.utf8ByteSize > ln then e.2.utf8ByteSize else ln) ln ∧
    (∀ e ∈ m, e.2.utf8ByteSize ≤
      m.foldl (fun ln e => if e.2.utf8ByteSize > ln then e.2.utf8ByteSize else ln) ln) ∧
    (m.foldl (fun ln e => if e.2.utf8ByteSize > ln then e.2.utf8ByteSize else ln) ln = ln ∨
      ∃ e ∈ m, e.2.utf8ByteSize =
        m.foldl (fun ln e => if e.2.utf8ByteSize > ln then e.2.utf8ByteSize else ln) ln) := by
  induction m generalizing ln with
  | nil => simp
  | cons e rest ih =>
    simp only [List.foldl_cons, List.mem_cons, forall_eq_or_imp, exists_eq_or_imp]
    by_cases hc : e.2.utf8ByteSize > ln
    · rw [if_pos hc]
      obtain ⟨h1, h2, h3⟩ := ih e.2.utf8ByteSize
      refine ⟨by omega, ⟨h1, h2⟩, ?_⟩
      rcases h3 with h3 | h3
      · exact Or.inr (Or.inl h3.symm)
      · exact Or.inr (Or.inr h3)
    · rw [if_neg hc]
      obtain ⟨h1, h2, h3⟩ := ih ln
      refine ⟨h1, ⟨by omega, h2⟩, ?_⟩
      rcases h3 with h3 | h3
      · exact Or.inl h3
      · exact Or.inr (Or.inr h3)

/-- C12, amended: `Len()` returns the maximum length in bytes over the values of the
translations: no value is longer, some value has exactly that length when there is an
entry, and the result is 0 when the map has no entries or is nil. On translations
`ru: Привет` it returns 12. -/
theorem Len_max_bytes (o : TString) (h : Heap) :
    (∀ e ∈ translations h o, e.2.utf8ByteSize ≤ Len o h) ∧
    (translations h o ≠ [] → ∃ e ∈ translations h o, e.2.utf8ByteSize = Len o h) ∧
    (translations h o = [] → Len o h = 0) ∧
    Len privetState.1 privetState.2 = 12 := by
  obtain ⟨_, h2, h3⟩ := lenFold_spec (translations h o) 0
  refine ⟨h2, ?_, ?_, by decide⟩
  · intro hne
    rcases h3 with h3 | h3
    · cases hm : translations h o with
      | nil => exact absurd hm hne
      | cons e rest =>
        have hmem : e ∈ translations h o := by
          rw [hm]
          exact List.mem_cons_self _ _
        have hle := h2 e hmem
        have h0 : Len o h = 0 := h3
        rw [← hm]
        exact ⟨e, hmem, by omega⟩
    · exact h3
  · intro hnil
    simp [Len, hnil]

/-- C12 as stated fails: on translations `ru: Привет`, a text of 6 characters, `Len()`
returns 12, the number of bytes. -/
theorem Len_counts_bytes :
    "Привет".length = 6 ∧ Len privetState.1 privetState.2 = 12 ∧
    Len privetState.1 privetState.2 ≠ 6 := by
  decide

/-! ### Exact keys, decoding and frames -/

/-- C17: exact-key write and read. For every instance (the unset one included), every
language and every text, `AddTranslate` returns, `GetTranslate` of the same key then gives
the text, and every other key reads as before; so `AddTranslate("EN", t)` leaves
`GetTranslate("en")` at its previous value. `GetTranslate` of a key without entry is the
empty string. -/
theorem AddTranslate_GetTranslate (o : TString) (h : Heap) (lang text : String) :
    ∃ o' h', AddTranslate o lang text h = .ok (o', h') ∧
      GetTranslate o' h' lang = text ∧
      (∀ k, k ≠ lang → mapGet (translations h' o') k = mapGet (translations h o) k) ∧
      (∀ k, k ≠ lang → GetTranslate o' h' k = GetTranslate o h k) ∧
      (∀ t, ∃ o2 h2, AddTranslate o "EN" t h = .ok (o2, h2) ∧
        GetTranslate o2 h2 "en" = GetTranslate o h "en" ∧ GetTranslate o2 h2 "EN" = t) ∧
      (∀ k, mapGet (translations h o) k = none → GetTranslate o h k = "") := by
  have key : ∀ l t, ∃ o' h', AddTranslate o l t h = .ok (o', h') ∧
      translations h' o' = mapSet (translations h o) l t := by
    intro l t
    obtain ⟨n, hn, hc, _⟩ := Init_translate o h
    refine ⟨_, _, by simp [AddTranslate, mapassign, hn]; exact ⟨rfl, rfl⟩, ?_⟩
    simp [translations, entries, hn, Heap.write, hc]
  obtain ⟨o', h', hA, hT⟩ := key lang text
  refine ⟨o', h', hA, ?_, ?_, ?_, ?_, ?_⟩
  · simp [GetTranslate, hT, mapIndex, mapGet_mapSet]
  · intro k hk
    rw [hT, mapGet_mapSet, if_neg (fun hh => hk hh.symm)]
  · intro k hk
    simp only [GetTranslate, mapIndex]
    rw [hT, mapGet_mapSet, if_neg (fun hh => hk hh.symm)]
  · intro t
    obtain ⟨o2, h2, hA2, hT2⟩ := key "EN" t
    refine ⟨o2, h2, hA2, ?_, ?_⟩
    · simp only [GetTranslate, mapIndex]
      rw [hT2, mapGet_mapSet, if_neg (by decide)]
    · simp [GetTranslate, hT2, mapIndex, mapGet_mapSet]
  · intro k hk
    simp [GetTranslate, mapIndex, hk]

/-- C18 at its failing input: the receiver is the zero value after `Init()` (map present,
no entries) and the other is `NewString("en", "B")`. `Join` returns, but the returned
instance holds the receiver's own map object, and after the call the receiver's
translations are `en: B` instead of empty. -/
theorem Join_mutates_empty_receiver :
    translations otherBAfterInit.2 emptyInit.1 = [] ∧
    ∃ j h', Join asciiLower emptyInit.1 otherBAfterInit.1 "-" otherBAfterInit.2 = .ok (j, h') ∧
      j.Translate = emptyInit.1.Translate ∧
      translations h' emptyInit.1 = [("en", "B")] :=
  ⟨by decide, _, _, rfl, by decide, by decide⟩

/-- C19: `Trim` overwrites the whole receiver. For every receiver it returns, and afterwards
display and second are empty and the guard is false, whatever they were; when the receiver
had no translation entries its map is nil afterwards. -/
theorem Trim_overwrites_receiver (toLower trimSpace : String → String) (o : TString)
    (h : Heap) :
    ∃ o' n h', Trim toLower trimSpace o h = .ok (o', n, h') ∧
      o'.Display = "" ∧ o'.Second = "" ∧ o'.ctxApplied = false ∧
      (translations h o = [] → o'.Translate = none) := by
  by_cases hne : translations h o = []
  · exact ⟨TString.zero, Len TString.zero h, h, by simp [Trim, Map, hne], rfl, rfl, rfl,
      fun _ => rfl⟩
  · refine ⟨_, _, _, by rw [Trim, Map_eval toLower o _ h hne], rfl, rfl, rfl, ?_⟩
    intro hnil
    exact absurd hnil hne

/-! ### Range loops that assign one entry per visited entry -/

theorem foldl_assign_untouched (key : String × String → String)
    (g : Option String → String × String → String) (m acc : GoMap) (k : String)
    (hk : ∀ e ∈ m, key e ≠ k) :
    mapGet (m.foldl (fun acc e => mapSet acc (key e) (g (mapGet acc (key e)) e)) acc) k =
      mapGet acc k := by
  induction m generalizing acc with
  | nil => rfl
  | cons e rest ih =>
    rw [List.foldl_cons, ih _ (fun e' he' => hk e' (List.mem_cons_of_mem _ he')),
      mapGet_mapSet, if_neg (hk e (List.mem_cons_self _ _))]

theorem foldl_assign_hit (key : String × String → String)
    (g : Option String → String × String → String) (m acc : GoMap)
    (hnd : (m.map key).Nodup) (e : String × String) (he : e ∈ m) :
    mapGet (m.foldl (fun acc e => mapSet acc (key e) (g (mapGet acc (key e)) e)) acc) (key e) =
      some (g (mapGet acc (key e)) e) := by
  induction m generalizing acc with
  | nil => simp at he
  | cons e0 rest ih =>
    rw [List.map_cons, List.nodup_cons] at hnd
    rw [List.foldl_cons]
    rcases List.mem_cons.1 he with h0 | hrest
    · subst h0
      rw [foldl_assign_untouched, mapGet_mapSet, if_pos rfl]
      intro e' he' heq
      exact hnd.1 (List.mem_map.2 ⟨e', he', heq⟩)
    · have hne : key e0 ≠ key e := by
        intro heq
        exact hnd.1 (List.mem_map.2 ⟨e, hrest, heq.symm⟩)
      rw [ih _ hnd.2 hrest, mapGet_mapSet, if_neg hne]

/-- Writing entries with pairwise distinct new keys appends them in the order visited. -/
theorem foldl_mapSet_map (key val : String × String → String) (m acc : GoMap)
    (hnd : (mapKeys acc ++ m.map key).Nodup) :
    m.foldl (fun acc e => mapSet acc (key e) (val e)) acc =
      acc ++ m.map (fun e => (key e, val e)) := by
  induction m generalizing acc with
  | nil => simp
  | cons e rest ih =>
    have hk : key e ∉ mapKeys acc := by
      intro hmem
      exact (List.nodup_append.1 hnd).2.2 hmem (by simp)
    rw [List.foldl_cons, mapSet_of_not_mem acc (key e) (val e) hk, ih]
    · simp
    · simpa [mapKeys] using hnd

theorem translations_alloc_write (o : TString) (h : Heap) (ho : allocated h o) (x y : GoMap) :
    translations ((h.alloc x).2.write h.next y) o = translations h o := by
  cases ht : o.Translate with
  | none => simp [translations, entries, ht]
  | some a =>
    have hlt : a ≠ h.next := Nat.ne_of_lt (ho a ht)
    simp [translations, entries, ht, Heap.alloc, Heap.write, Function.update, hlt]

theorem translations_alloc (o : TString) (h : Heap) (ho : allocated h o) (x : GoMap) :
    translations (h.alloc x).2 o = translations h o := by
  cases ht : o.Translate with
  | none => simp [translations, entries, ht]
  | some a =>
    have hlt : a ≠ h.next := Nat.ne_of_lt (ho a ht)
    simp [translations, entries, ht, Heap.alloc, Function.update, hlt]

/-- Result of `Map` for a receiver whose map is allocated and whose keys stay pairwise
distinct after lowercasing: the new entries in the order visited, and the receiver's map as
it was. -/
theorem Map_result (toLower : String → String) (o : TString) (f : String → String) (h : Heap)
    (ho : allocated h o) (hnd : ((translations h o).map (fun e => toLower e.1)).Nodup) :
    ∃ j h', Map toLower o f h = .ok (j, h') ∧
      j.Display = "" ∧ j.Second = "" ∧ j.ctxApplied = false ∧
      translations h' j = (translations h o).map (fun e => (toLower e.1, f e.2)) ∧
      (translations h o = [] → j = TString.zero ∧ j.Translate = none) ∧
      translations h' o = translations h o := by
  by_cases hne : translations h o = []
  · refine ⟨TString.zero, h, by simp [Map, hne], rfl, rfl, rfl, ?_, fun _ => ⟨rfl, rfl⟩, rfl⟩
    rw [hne]
    rfl
  · refine ⟨_, _, Map_eval toLower o f h hne, rfl, rfl, rfl, ?_, ?_, ?_⟩
    · rw [translations_alloc o h ho]
      simp only [translations, entries, Heap.write, Function.update_same]
      have := foldl_mapSet_map (fun e => toLower e.1) (fun e => f e.2) (translations h o) []
        (by simpa [mapKeys] using hnd)
      simpa [translations, entries] using this
    · intro hnil
      exact absurd hnil hne
    · exact translations_alloc_write o h ho _ _

theorem mapGet_map_of_nodup (key val : String × String → String) (m : GoMap)
    (hnd : (m.map key).Nodup) (e : String × String) (he : e ∈ m) :
    mapGet (m.map (fun e => (key e, val e))) (key e) = some (val e) := by
  induction m with
  | nil => simp at he
  | cons e0 rest ih =>
    rw [List.map_cons, List.nodup_cons] at hnd
    rcases List.mem_cons.1 he with h0 | hrest
    · subst h0
      simp [mapGet]
    · have hne : key e0 ≠ key e := by
        intro heq
        exact hnd.1 (List.mem_map.2 ⟨e, hrest, heq.symm⟩)
      simp only [List.map_cons, mapGet, if_neg hne]
      exact ih hnd.2 hrest

/-- C13: `Map`. For a receiver whose map is an allocated one and whose keys are pairwise
distinct after lowercasing, and every function `f`, `Map(f)` returns an instance with
display and second empty whose translations are exactly the entries
`toLower lang -> f text`, one for each entry `(lang, text)` of the receiver; it is the zero
value (nil map) when the receiver has no entries. The call only reads the receiver: the
struct is not assigned, and the entries of its map are the same afterwards. -/
theorem Map_semantics (toLower : String → String) (o : TString) (f : String → String)
    (h : Heap) (ho : allocated h o)
    (hnd : ((translations h o).map (fun e => toLower e.1)).Nodup) :
    ∃ j h', Map toLower o f h = .ok (j, h') ∧
      j.Display = "" ∧ j.Second = "" ∧
      translations h' j = (translations h o).map (fun e => (toLower e.1, f e.2)) ∧
      (∀ lang text, (lang, text) ∈ translations h o →
        mapGet (translations h' j) (toLower lang) = some (f text)) ∧
      (∀ k, k ∈ mapKeys (translations h' j) →
        ∃ lang text, (lang, text) ∈ translations h o ∧ k = toLower lang) ∧
      (translations h o = [] → j = TString.zero ∧ j.Translate = none) ∧
      translations h' o = translations h o := by
  obtain ⟨j, h', hM, hd, hs, _, hT, hz, hfr⟩ := Map_result toLower o f h ho hnd
  refine ⟨j, h', hM, hd, hs, hT, ?_, ?_, hz, hfr⟩
  · intro lang text hmem
    rw [hT]
    exact mapGet_map_of_nodup (fun e => toLower e.1) (fun e => f e.2) _ hnd (lang, text) hmem
  · intro k hk
    rw [hT] at hk
    simp only [mapKeys, List.map_map, List.mem_map, Function.comp] at hk
    obtain ⟨e, he, hke⟩ := hk
    exact ⟨e.1, e.2, he, hke.symm⟩

/-- Witness of C13: mapping `EN: B, fr: C` with the function that appends `!` returns
`en: B!, fr: C!`, and the receiver still holds `EN: B, fr: C`. -/
theorem Map_semantics_witness :
    ∃ j h', Map asciiLower stateB (fun s => s ++ "!") stateA.2 = .ok (j, h') ∧
      j.Display = "" ∧ j.Second = "" ∧
      translations h' j = [("en", "B!"), ("fr", "C!")] ∧
      translations h' stateB = [("EN", "B"), ("fr", "C")] := by
  obtain ⟨j, h', hM, hd, hs, hT, _, _, _, hfr⟩ :=
    Map_semantics asciiLower stateB (fun s => s ++ "!") stateA.2
      (by intro a ha; cases ha; decide) (by decide)
  exact ⟨j, h', hM, hd, hs, by rw [hT]; decide, by rw [hfr]; decide⟩

/-- C16: `Trim`. For a receiver whose map is an allocated one and whose keys are pairwise
distinct after lowercasing, `Trim` returns, the receiver's translations are afterwards the
old entries with each key lowercased and each value trimmed, and the returned number is
`Len()` of the receiver after the call, that is the maximum length of the trimmed values
(0 when there is none). -/
theorem Trim_semantics (toLower trimSpace : String → String) (o : TString) (h : Heap)
    (ho : allocated h o)
    (hnd : ((translations h o).map (fun e => toLower e.1)).Nodup) :
    ∃ o' n h', Trim toLower trimSpace o h = .ok (o', n, h') ∧
      translations h' o' = (translations h o).map (fun e => (toLower e.1, trimSpace e.2)) ∧
      n = Len o' h' ∧
      (∀ e ∈ translations h o, (trimSpace e.2).utf8ByteSize ≤ n) ∧
      (translations h o ≠ [] →
        ∃ e ∈ translations h o, (trimSpace e.2).utf8ByteSize = n) ∧
      (translations h o = [] → n = 0) := by
  obtain ⟨j, h', hM, _, _, _, hT, _, _⟩ :=
    Map_result toLower o (fun s => trimSpace s) h ho hnd
  have hTrim : Trim toLower trimSpace o h = .ok (j, Len j h', h') := by
    rw [Trim, hM]
  obtain ⟨_, h2, h3⟩ := lenFold_spec (translations h' j) 0
  have hLen : Len j h' =
      (translations h' j).foldl
        (fun ln e => if e.2.utf8ByteSize > ln then e.2.utf8ByteSize else ln) 0 := rfl
  rw [← hLen] at h2 h3
  refine ⟨j, Len j h', h', hTrim, hT, rfl, ?_, ?_, ?_⟩
  · intro e he
    exact h2 (toLower e.1, trimSpace e.2) (by rw [hT]; exact List.mem_map.2 ⟨e, he, rfl⟩)
  · intro hne
    rcases h3 with h3 | ⟨e', he', hsz⟩
    · cases hm : translations h o with
      | nil => exact absurd hm hne
      | cons e rest =>
        have hmem : e ∈ translations h o := by
          rw [hm]
          exact List.mem_cons_self _ _
        have hle := h2 (toLower e.1, trimSpace e.2)
          (by rw [hT]; exact List.mem_map.2 ⟨e, hmem, rfl⟩)
        rw [← hm]
        exact ⟨e, hmem, by simp only at hle; omega⟩
    · rw [hT] at he'
      obtain ⟨e, he, hee⟩ := List.mem_map.1 he'
      exact ⟨e, he, by rw [← hsz, ← hee]⟩
  · intro hnil
    rw [hLen, hT, hnil]
    rfl

/-- Witness of C16: trimming ` Hi ` under `EN` and `Salut ` under `fr` leaves
`en: Hi, fr: Salut` and returns 5. -/
theorem Trim_semantics_witness :
    ∃ o' n h', Trim asciiLower asciiTrim paddedState.1 paddedState.2 = .ok (o', n, h') ∧
      translations h' o' = [("en", "Hi"), ("fr", "Salut")] ∧ n = 5 := by
  obtain ⟨o', n, h', hTr, hT, _, hle, hex, _⟩ :=
    Trim_semantics asciiLower asciiTrim paddedState.1 paddedState.2
      (by intro a ha; cases ha; decide) (by decide)
  refine ⟨o', n, h', hTr, by rw [hT]; decide, ?_⟩
  have h1 := hle ("fr", "Salut ") (by decide)
  obtain ⟨e, he, hsz⟩ := hex (by decide)
  have hP : translations paddedState.2 paddedState.1 = [("EN", " Hi "), ("fr", "Salut ")] := by
    decide
  rw [hP] at he
  simp only [List.mem_cons, List.mem_singleton, List.not_mem_nil, or_false] at he
  have h5 : (asciiTrim "Salut ").utf8ByteSize = 5 := by decide
  have h2 : (asciiTrim " Hi ").utf8ByteSize = 2 := by decide
  rcases he with rfl | rfl
  · simp only at hsz h1
    omega
  · simp only at hsz
    omega

/-! ### Update and Add -/

theorem Init_other_frame (o r : TString) (h : Heap) (hr : allocated h r) (hsep : separate o r)
    (n : Nat) (hn : (Init o h).1.Translate = some n) (x : GoMap) :
    translations ((Init o h).2.write n x) r = translations h r := by
  cases hrt : r.Translate with
  | none => simp [translations, entries, hrt]
  | some b =>
    have hlt : b ≠ h.next := Nat.ne_of_lt (hr b hrt)
    cases ht : o.Translate with
    | none =>
      simp only [Init, ht, Heap.alloc, Option.some.injEq] at hn
      subst hn
      simp [Init, ht, translations, entries, hrt, Heap.alloc, Heap.write, Function.update, hlt]
    | some a =>
      simp only [Init, ht, Option.some.injEq] at hn
      subst hn
      have hne : b ≠ a := by
        intro hba
        exact hsep a ht (by rw [hrt, hba])
      simp [Init, ht, translations, entries, hrt, Heap.write, Function.update, hne]

/-- C14: `Update`. For every receiver (the unset one included) and every other whose map
is an allocated one, distinct from the receiver's, with keys pairwise distinct after
lowercasing: `Update` returns; the receiver then holds `text` at `toLower lang` for every
entry `(lang, text)` of the other; every key that is not the lowercased form of a key of
the other reads as before; display, second and the guard are unchanged; and the other's
translations are unchanged. -/
theorem Update_semantics (toLower : String → String) (o r : TString) (h : Heap)
    (hr : allocated h r) (hsep : separate o r)
    (hnd : ((translations h r).map (fun e => toLower e.1)).Nodup) :
    ∃ o' h', Update toLower o r h = .ok (o', h') ∧
      (∀ lang text, (lang, text) ∈ translations h r →
        mapGet (translations h' o') (toLower lang) = some text) ∧
      (∀ k, (∀ lang text, (lang, text) ∈ translations h r → toLower lang ≠ k) →
        mapGet (translations h' o') k = mapGet (translations h o) k) ∧
      o'.Display = o.Display ∧ o'.Second = o.Second ∧ o'.ctxApplied = o.ctxApplied ∧
      translations h' r = translations h r := by
  obtain ⟨n, hn, hU⟩ := Update_eval toLower o r h
  obtain ⟨n', hn', _, hD, hS, hG⟩ := Init_translate o h
  rw [Init_frame o r h hr] at hU
  refine ⟨_, _, hU, ?_, ?_, hD, hS, hG, Init_other_frame o r h hr hsep n hn _⟩
  · intro lang text hmem
    simp only [translations, entries, hn, Heap.write, Function.update_same]
    exact foldl_assign_hit (fun e => toLower e.1) (fun _ e => e.2) _ _ hnd (lang, text) hmem
  · intro k hk
    simp only [translations, entries, hn, Heap.write, Function.update_same]
    exact foldl_assign_untouched (fun e => toLower e.1) (fun _ e => e.2) _ _ k
      (fun e he => hk e.1 e.2 he)

/-- Witness of C14: the receiver `en: old, fr: Salut` updated with `EN: hi` holds
`en: hi, fr: Salut`, and no entry under `EN`. -/
theorem Update_semantics_witness :
    ∃ o' h', Update asciiLower lowerState.1 otherHi.1 lowerState.2 = .ok (o', h') ∧
      mapGet (translations h' o') "en" = some "hi" ∧
      mapGet (translations h' o') "fr" = some "Salut" ∧
      mapGet (translations h' o') "EN" = none ∧
      translations h' otherHi.1 = [("EN", "hi")] := by
  obtain ⟨o', h', hU, hhit, hun, _, _, _, hfr⟩ :=
    Update_semantics asciiLower lowerState.1 otherHi.1 lowerState.2
      (by intro a ha; cases ha; decide) (by intro a ha; cases ha; decide) (by decide)
  have hR : translations lowerState.2 otherHi.1 = [("EN", "hi")] := by decide
  have hmiss : ∀ k, asciiLower "EN" ≠ k →
      ∀ lang text, (lang, text) ∈ translations lowerState.2 otherHi.1 → asciiLower lang ≠ k := by
    intro k hk lang text hmem
    rw [hR] at hmem
    simp only [List.mem_singleton, Prod.mk.injEq] at hmem
    rw [hmem.1]
    exact hk
  refine ⟨o', h', hU, hhit "EN" "hi" (by decide), ?_, ?_, by rw [hfr]; decide⟩
  · rw [hun "fr" (hmiss "fr" (by decide))]
    decide
  · rw [hun "EN" (hmiss "EN" (by decide))]
    decide

/-- C15: `Add`. For every receiver (the unset one included) and every other whose map is
an allocated one, distinct from the receiver's, with keys pairwise distinct after
lowercasing: `Add` returns; for every entry `(lang, text)` of the other the receiver then
holds, at `k = toLower lang`, its old value at `k` (the empty string when it had none)
followed by `text`; every other key reads as before; display, second and the guard are
unchanged; and the other's translations are unchanged. -/
theorem Add_semantics (toLower : String → String) (o r : TString) (h : Heap)
    (hr : allocated h r) (hsep : separate o r)
    (hnd : ((translations h r).map (fun e => toLower e.1)).Nodup) :
    ∃ o' h', Add toLower o r h = .ok (o', h') ∧
      (∀ lang text, (lang, text) ∈ translations h r →
        mapGet (translations h' o') (toLower lang) =
          some ((mapGet (translations h o) (toLower lang)).getD "" ++ text)) ∧
      (∀ k, (∀ lang text, (lang, text) ∈ translations h r → toLower lang ≠ k) →
        mapGet (translations h' o') k = mapGet (translations h o) k) ∧
      o'.Display = o.Display ∧ o'.Second = o.Second ∧ o'.ctxApplied = o.ctxApplied ∧
      translations h' r = translations h r := by
  obtain ⟨n, hn, hA⟩ := Add_eval toLower o r h
  obtain ⟨n', hn', _, hD, hS, hG⟩ := Init_translate o h
  rw [Init_frame o r h hr] at hA
  refine ⟨_, _, hA, ?_, ?_, hD, hS, hG, Init_other_frame o r h hr hsep n hn _⟩
  · intro lang text hmem
    simp only [translations, entries, hn, Heap.write, Function.update_same]
    exact foldl_assign_hit (fun e => toLower e.1) (fun c e => c.getD "" ++ e.2) _ _ hnd
      (lang, text) hmem
  · intro k hk
    simp only [translations, entries, hn, Heap.write, Function.update_same]
    exact foldl_assign_untouched (fun e => toLower e.1) (fun c e => c.getD "" ++ e.2) _ _ k
      (fun e he => hk e.1 e.2 he)

/-- Witness of C15: adding `EN: hi` to the receiver `en: old, fr: Salut` gives
`en: oldhi, fr: Salut`; adding it to the zero value gives `en: hi`. -/
theorem Add_semantics_witness :
    (∃ o' h', Add asciiLower lowerState.1 otherHi.1 lowerState.2 = .ok (o', h') ∧
      mapGet (translations h' o') "en" = some "oldhi" ∧
      mapGet (translations h' o') "fr" = some "Salut") ∧
    (∃ o' h', Add asciiLower TString.zero otherHi.1 lowerState.2 = .ok (o', h') ∧
      mapGet (translations h' o') "en" = some "hi") := by
  have hR : translations lowerState.2 otherHi.1 = [("EN", "hi")] := by decide
  constructor
  · obtain ⟨o', h', hA, hhit, hun, _⟩ :=
      Add_semantics asciiLower lowerState.1 otherHi.1 lowerState.2
        (by intro a ha; cases ha; decide) (by intro a ha; cases ha; decide) (by decide)
    refine ⟨o', h', hA, hhit "EN" "hi" (by decide), ?_⟩
    rw [hun "fr" ?_]
    · decide
    · intro lang text hmem
      rw [hR] at hmem
      simp only [List.mem_singleton, Prod.mk.injEq] at hmem
      rw [hmem.1]
      decide
  · obtain ⟨o', h', hA, hhit, _⟩ :=
      Add_semantics asciiLower TString.zero otherHi.1 lowerState.2
        (by intro a ha; cases ha; decide) (by intro a ha; cases ha) (by decide)
    exact ⟨o', h', hA, hhit "EN" "hi" (by decide)⟩

/-! ### Decoding -/

theorem matchesField_unique (f g k : String) (hf : matchesField f k = true)
    (hg : matchesField g k = true) : foldName f = foldName g := by
  simp only [matchesField, decide_eq_true_eq] at hf hg
  rw [← hf, ← hg]

theorem lastString_append (field : String) (xs ys : List (String × Scalar)) (init : String) :
    lastString field (xs ++ ys) init = lastString field ys (lastString field xs init) := by
  simp [lastString, List.foldl_append]

/-- Decoding of the members of a `translate` object whose members have acceptable types:
each buffer field ends up with the string of the last member that selects it. -/
theorem decodeBuf_spec (ms : List (String × Scalar)) (buf : TranslateBuf)
    (hok : ms.all bufMemberOk = true) :
    ms.foldlM decodeBufMember buf =
      .ok { En := lastString "en" ms buf.En, Ru := lastString "ru" ms buf.Ru } := by
  induction ms generalizing buf with
  | nil => rfl
  | cons m rest ih =>
    rw [List.all_cons, Bool.and_eq_true] at hok
    obtain ⟨hm, hrest⟩ := hok
    rw [List.foldlM_cons]
    by_cases hen : matchesField "en" m.1 = true
    · have hru : matchesField "ru" m.1 = false := by
        cases hr : matchesField "ru" m.1 with
        | false => rfl
        | true => exact absurd (matchesField_unique "en" "ru" m.1 hen hr) (by decide)
      cases hv : m.2 with
      | other => simp [bufMemberOk, hen, hv] at hm
      | null =>
        have hstep : decodeBufMember buf m = .ok buf := by
          simp [decodeBufMember, hen, hv]
        rw [hstep]
        show List.foldlM decodeBufMember buf rest = _
        rw [ih buf hrest]
        simp [lastString, hen, hru, hv]
      | str s =>
        have hstep : decodeBufMember buf m = .ok { buf with En := s } := by
          simp [decodeBufMember, hen, hv]
        rw [hstep]
        show List.foldlM decodeBufMember { buf with En := s } rest = _
        rw [ih _ hrest]
        simp [lastString, hen, hru, hv]
    · have hen' : matchesField "en" m.1 = false := by simpa using hen
      by_cases hru : matchesField "ru" m.1 = true
      · cases hv : m.2 with
        | other => simp [bufMemberOk, hru, hv] at hm
        | null =>
          have hstep : decodeBufMember buf m = .ok buf := by
            simp [decodeBufMember, hen', hru, hv]
          rw [hstep]
          show List.foldlM decodeBufMember buf rest = _
          rw [ih buf hrest]
          simp [lastString, hen', hru, hv]
        | str s =>
          have hstep : decodeBufMember buf m = .ok { buf with Ru := s } := by
            simp [decodeBufMember, hen', hru, hv]
          rw [hstep]
          show List.foldlM decodeBufMember { buf with Ru := s } rest = _
          rw [ih _ hrest]
          simp [lastString, hen', hru, hv]
      · have hru' : matchesField "ru" m.1 = false := by simpa using hru
        have hstep : decodeBufMember buf m = .ok buf := by
          simp [decodeBufMember, hen', hru']
        rw [hstep]
        show List.foldlM decodeBufMember buf rest = _
        rw [ih buf hrest]
        simp [lastString, hen', hru']

/-- Decoding of the members of a well-typed payload: display and second end up with the
string of the last top-level member that selects them, the buffer fields with the string of
the last member of the `translate` objects that selects them, and the map reference and the
guard of the receiver are not touched. -/
theorem decodeMembers_spec (p : Payload) (o : TString) (buf : TranslateBuf)
    (hok : wellTyped p = true) :
    p.foldlM decodeMember (o, buf) =
      .ok ({ o with Display := topString "display" p o.Display,
                    Second := topString "second" p o.Second },
           { En := lastString "en" (translateMembers p) buf.En,
             Ru := lastString "ru" (translateMembers p) buf.Ru }) := by
  induction p generalizing o buf with
  | nil => rfl
  | cons m rest ih =>
    rw [wellTyped, List.all_cons, Bool.and_eq_true] at hok
    obtain ⟨hm, hrest⟩ := hok
    have hrest' : wellTyped rest = true := hrest
    rw [List.foldlM_cons]
    by_cases hd : matchesField "display" m.1 = true
    · have hs : matchesField "second" m.1 = false := by
        cases hx : matchesField "second" m.1 with
        | false => rfl
        | true => exact absurd (matchesField_unique "display" "second" m.1 hd hx) (by decide)
      have ht : matchesField "translate" m.1 = false := by
        cases hx : matchesField "translate" m.1 with
        | false => rfl
        | true => exact absurd (matchesField_unique "display" "translate" m.1 hd hx) (by decide)
      cases hv : m.2 with
      | other => simp [memberOk, hd, hv] at hm
      | obj ms => simp [memberOk, hd, hv] at hm
      | null =>
        have hstep : decodeMember (o, buf) m = .ok (o, buf) := by
          simp [decodeMember, hd, hv]
        rw [hstep]
        show List.foldlM decodeMember (o, buf) rest = _
        rw [ih o buf hrest']
        simp [topString, translateMembers, hd, hs, ht, hv]
      | str s =>
        have hstep : decodeMember (o, buf) m = .ok ({ o with Display := s }, buf) := by
          simp [decodeMember, hd, hv]
        rw [hstep]
        show List.foldlM decodeMember ({ o with Display := s }, buf) rest = _
        rw [ih _ buf hrest']
        simp [topString, translateMembers, hd, hs, ht, hv]
    · have hd' : matchesField "display" m.1 = false := by simpa using hd
      by_cases hs : matchesField "second" m.1 = true
      · have ht : matchesField "translate" m.1 = false := by
          cases hx : matchesField "translate" m.1 with
          | false => rfl
          | true => exact absurd (matchesField_unique "second" "translate" m.1 hs hx) (by decide)
        cases hv : m.2 with
        | other => simp [memberOk, hs, hv] at hm
        | obj ms => simp [memberOk, hs, hv] at hm
        | null =>
          have hstep : decodeMember (o, buf) m = .ok (o, buf) := by
            simp [decodeMember, hd', hs, hv]
          rw [hstep]
          show List.foldlM decodeMember (o, buf) rest = _
          rw [ih o buf hrest']
          simp [topString, translateMembers, hd', hs, ht, hv]
        | str s =>
          have hstep : decodeMember (o, buf) m = .ok ({ o with Second := s }, buf) := by
            simp [decodeMember, hd', hs, hv]
          rw [hstep]
          show List.foldlM decodeMember ({ o with Second := s }, buf) rest = _
          rw [ih _ buf hrest']
          simp [topString, translateMembers, hd', hs, ht, hv]
      · have hs' : matchesField "second" m.1 = false := by simpa using hs
        by_cases ht : matchesField "translate" m.1 = true
        · cases hv : m.2 with
          | other => simp [memberOk, hd', hs', ht, hv] at hm
          | str s => simp [memberOk, hd', hs', ht, hv] at hm
          | null =>
            have hstep : decodeMember (o, buf) m = .ok (o, buf) := by
              simp [decodeMember, hd', hs', ht, hv]
            rw [hstep]
            show List.foldlM decodeMember (o, buf) rest = _
            rw [ih o buf hrest']
            simp [topString, translateMembers, hd', hs', ht, hv]
          | obj ms =>
            have hms : ms.all bufMemberOk = true := by
              simpa [memberOk, hd', hs', ht, hv] using hm
            have hstep : decodeMember (o, buf) m =
                .ok (o, { En := lastString "en" ms buf.En, Ru := lastString "ru" ms buf.Ru }) := by
              simp [decodeMember, hd', hs', ht, hv, decodeBuf_spec ms buf hms]
            rw [hstep]
            show List.foldlM decodeMember
              (o, { En := lastString "en" ms buf.En, Ru := lastString "ru" ms buf.Ru }) rest = _
            rw [ih o _ hrest']
            simp [topString, translateMembers, hd', hs', ht, hv, lastString_append]
        · have ht' : matchesField "translate" m.1 = false := by simpa using ht
          have hstep : decodeMember (o, buf) m = .ok (o, buf) := by
            simp [decodeMember, hd', hs', ht']
          rw [hstep]
          show List.foldlM decodeMember (o, buf) rest = _
          rw [ih o buf hrest']
          simp [topString, translateMembers, hd', hs', ht']

theorem jsonUnmarshalAux_spec (o : TString) (p : Payload) (hok : wellTyped p = true) :
    jsonUnmarshalAux o (.wellFormed p) =
      .ok ({ o with Display := topString "display" p o.Display,
                    Second := topString "second" p o.Second },
           { En := lastString "en" (translateMembers p) "",
             Ru := lastString "ru" (translateMembers p) "" }) :=
  decodeMembers_spec p o { En := "", Ru := "" } hok

/-- C5, amended: legacy decode priority. Take a well-typed payload and let the `en` value and
the `ru` value be the strings of the last members of its `translate` object named `en` and
`ru` up to letter case (the empty string when there is none). When one of the two is
non-empty, decoding succeeds, the translations are exactly the non-empty ones of `en` and
`ru`, display is the `ru` value and second the `en` value, whatever top-level display and
second the payload carries, whatever members of other names `translate` has, and whatever
the receiver and its map held before. -/
theorem UnmarshalJSON_legacy (o : TString) (h : Heap) (p : Payload)
    (hok : wellTyped p = true)
    (hne : lastString "en" (translateMembers p) "" ≠ "" ∨
      lastString "ru" (translateMembers p) "" ≠ "") :
    ∃ o' h', UnmarshalJSON o (.wellFormed p) h = .ok (o', h') ∧
      o'.Display = lastString "ru" (translateMembers p) "" ∧
      o'.Second = lastString "en" (translateMembers p) "" ∧
      translations h' o' =
        (if lastString "en" (translateMembers p) "" ≠ ""
          then [("en", lastString "en" (translateMembers p) "")] else []) ++
        (if lastString "ru" (translateMembers p) "" ≠ ""
          then [("ru", lastString "ru" (translateMembers p) "")] else []) := by
  have hdec := jsonUnmarshalAux_spec o p hok
  generalize lastString "en" (translateMembers p) "" = en at hne hdec ⊢
  generalize lastString "ru" (translateMembers p) "" = ru at hne hdec ⊢
  have hc : ru ≠ "" ∨ en ≠ "" := hne.symm
  cases ht : o.Translate with
  | none =>
    by_cases he : en = "" <;> by_cases hr : ru = "" <;>
      simp [UnmarshalJSON, hdec, ht, hc, he, hr, Heap.alloc, Heap.write,
        translations, entries, mapSet] at hc ⊢ <;>
      exact ⟨_, _, ⟨rfl, rfl⟩, rfl, rfl, by simp⟩
  | some a =>
    by_cases he : en = "" <;> by_cases hr : ru = "" <;>
      simp [UnmarshalJSON, hdec, ht, hc, he, hr, Heap.alloc, Heap.write,
        translations, entries, mapSet] at hc ⊢ <;>
      exact ⟨_, _, ⟨rfl, rfl⟩, rfl, rfl, by simp⟩

/-- Witness of C5 as amended: the payload with display `shown`,
`translate: (en: old, fr: Salut, EN: Hi, ru: Привет)` and `SECOND: other`, decoded into an
instance that already held `en: Hello`, yields translations `en: Hi, ru: Привет`, display
`Привет` and second `Hi`. -/
theorem UnmarshalJSON_legacy_witness :
    ∃ o' h', UnmarshalJSON helloState.1 (.wellFormed legacyPayload) helloState.2 = .ok (o', h') ∧
      o'.Display = "Привет" ∧ o'.Second = "Hi" ∧
      translations h' o' = [("en", "Hi"), ("ru", "Привет")] := by
  obtain ⟨o', h', he, hd, hs, ht⟩ :=
    UnmarshalJSON_legacy helloState.1 helloState.2 legacyPayload (by decide)
      (Or.inl (by decide))
  exact ⟨o', h', he, by rw [hd]; decide, by rw [hs]; decide, by rw [ht]; decide⟩

/-- C5 as stated fails: the `translate` object `(en: Hi, EN: "")` holds a non-empty `en`,
yet the member `EN` is stored into the same buffer field after it, the legacy branch is
not taken, and decoding into the zero value leaves translations `ru: "", en: ""` and an
empty second instead of `en: Hi` and second `Hi`. -/
theorem UnmarshalJSON_legacy_shadowed :
    ("en", Scalar.str "Hi") ∈ translateMembers shadowedEnPayload ∧
    ∃ o' h', UnmarshalJSON TString.zero (.wellFormed shadowedEnPayload) Heap.empty =
        .ok (o', h') ∧
      translations h' o' = [("ru", ""), ("en", "")] ∧ o'.Second = "" ∧
      translations h' o' ≠ [("en", "Hi")] ∧ o'.Second ≠ "Hi" :=
  ⟨by decide, _, _, rfl, by decide, by decide, by decide, by decide⟩

/-- C20, amended: the decoder reads four payload members only, each matched by name up to
letter case with the last occurrence winning. For every well-typed payload in which the
last members of the `translate` object named `en` and `ru` up to letter case are missing or
empty, decoding into the zero value succeeds with translations exactly
`ru: display, en: second` of the payload, display the payload's display and second the
payload's second (the string of the last top-level member of that name up to letter case,
the empty string when there is none), whatever members of other names the `translate`
object carries. -/
theorem UnmarshalJSON_reads_four_fields (p : Payload) (h : Heap)
    (hok : wellTyped p = true)
    (hen : lastString "en" (translateMembers p) "" = "")
    (hru : lastString "ru" (translateMembers p) "" = "") :
    ∃ o' h', UnmarshalJSON TString.zero (.wellFormed p) h = .ok (o', h') ∧
      translations h' o' = [("ru", topString "display" p ""), ("en", topString "second" p "")] ∧
      o'.Display = topString "display" p "" ∧ o'.Second = topString "second" p "" := by
  have hdec := jsonUnmarshalAux_spec TString.zero p hok
  rw [hen, hru] at hdec
  have hD : TString.zero.Display = "" := rfl
  have hS : TString.zero.Second = "" := rfl
  rw [hD, hS] at hdec
  generalize topString "display" p "" = d at hdec ⊢
  generalize topString "second" p "" = s at hdec ⊢
  simp only [UnmarshalJSON, hdec]
  by_cases hd : d = "" <;> by_cases hs : s = "" <;>
    simp [hd, hs, TString.zero, Heap.alloc, Heap.write, translations, entries, mapSet,
      mapGet] <;>
    exact ⟨_, _, ⟨rfl, rfl⟩, by simp [hd, hs], by simp [hd, hs], by simp [hd, hs]⟩

/-- Witness of C20 as amended: the payload with `Display: Bonjour`, second `Hi` and
`translate: (fr: Salut, en: "")` decodes to translations `ru: Bonjour, en: Hi`; the `fr`
entry is not kept. -/
theorem UnmarshalJSON_reads_four_fields_witness :
    ∃ o' h', UnmarshalJSON TString.zero (.wellFormed currentPayload) Heap.empty = .ok (o', h') ∧
      translations h' o' = [("ru", "Bonjour"), ("en", "Hi")] ∧
      o'.Display = "Bonjour" ∧ o'.Second = "Hi" ∧ mapGet (translations h' o') "fr" = none := by
  obtain ⟨o', h', hU, hT, hD, hS⟩ :=
    UnmarshalJSON_reads_four_fields currentPayload Heap.empty (by decide) (by decide)
      (by decide)
  exact ⟨o', h', hU, by rw [hT]; decide, by rw [hD]; decide, by rw [hS]; decide,
    by rw [hT]; decide⟩

/-- C20 as stated fails: the payload `translate: (EN: Hi)` has no member named `en` or `ru`,
yet the member `EN` is stored into the `en` field of the buffer, the legacy branch is
taken, and decoding into the zero value yields translations `en: Hi` and second `Hi`
instead of `ru: "", en: ""` and an empty second. -/
theorem UnmarshalJSON_upper_case_member :
    (∀ m ∈ translateMembers upperEnPayload, m.1 ≠ "en" ∧ m.1 ≠ "ru") ∧
    ∃ o' h', UnmarshalJSON TString.zero (.wellFormed upperEnPayload) Heap.empty =
        .ok (o', h') ∧
      translations h' o' = [("en", "Hi")] ∧ o'.Second = "Hi" ∧
      translations h' o' ≠ [("ru", ""), ("en", "")] ∧ o'.Second ≠ "" :=
  ⟨by decide, _, _, rfl, by decide, by decide, by decide, by decide⟩

end Translation
